import Mathlib

/-!
Verification of the PostgreSQL migration runner
(`part-3-receipt-processing-with-vlm/db/migrate.py`).

The Python module is shallowly embedded below.  Python strings are modelled
as Lean `String`s, processed through `List Char` (code points); the ASCII
fragment of Python's `str.upper`, `str.strip`, `\s` and `\w` is modelled,
which covers all SQL keywords the module inspects.  Python `set`s of strings
are modelled as deduplicated lists (set iteration order is unspecified in
Python; every theorem below is insensitive to the order of these lists).
Database effects are modelled as an explicit operation trace (`DbOp`), with
an environment oracle deciding the success of each statement.
-/

namespace Migrate

/-! ### Python string primitives (ASCII model) -/

/-- Python `\w` (ASCII fragment): letters, digits, underscore. -/
def isWordChar (c : Char) : Bool :=
  c.isAlphanum || c = '_'

/-- Python `\s` (ASCII fragment), `str.strip` whitespace. -/
def isSpaceChar (c : Char) : Bool :=
  c.isWhitespace

/-- Python `str.split(sep)` for a single-character separator. -/
def pySplit (sep : Char) : List Char → List (List Char)
  | [] => [[]]
  | c :: rest =>
    if c = sep then [] :: pySplit sep rest
    else
      match pySplit sep rest with
      | [] => [[c]]
      | l :: ls => (c :: l) :: ls

/-- Python `str.upper` (ASCII model). -/
def pyUpper (l : List Char) : List Char :=
  l.map Char.toUpper

/-- Python `str.strip` (remove leading and trailing whitespace). -/
def pyStrip (l : List Char) : List Char :=
  ((l.dropWhile isSpaceChar).reverse.dropWhile isSpaceChar).reverse

/-- Python `a.startswith(b)`. -/
def pyStartsWith (s pre : String) : Bool :=
  pre.toList.isPrefixOf s.toList

/-- Python `b in a` (substring containment). -/
def pyContains (s sub : String) : Bool :=
  decide (sub.toList <:+: s.toList)

/-- Python `a < b` on strings: lexicographic comparison of code points. -/
def pyStrLt : List Char → List Char → Bool
  | [], [] => false
  | [], _ :: _ => true
  | _ :: _, [] => false
  | a :: as, b :: bs =>
    if a = b then pyStrLt as bs else decide (a.toNat < b.toNat)

/-! ### `migrate.py`: pure content-inspection functions -/

/-- `AUTOCOMMIT_STATEMENTS` from `migrate.py` (a `frozenset`; only
membership is used, via `any`, so a list is a faithful model). -/
def AUTOCOMMIT_STATEMENTS : List String :=
  ["CREATE DATABASE", "DROP DATABASE", "CREATE TABLESPACE",
   "DROP TABLESPACE", "ALTER SYSTEM"]

/-- The literal `REFERENCES` searched for by `get_table_references`. -/
def refsLit : List Char := "REFERENCES".toList

/-- One attempted match of the Python regex `REFERENCES\s+(\w+)` at the
head of `l`: the literal, then one or more whitespace characters, then the
captured maximal run of word characters.  (`\s` and `\w` are disjoint, so
the greedy `\s+` never needs to backtrack.) -/
def matchRefAt (l : List Char) : Option String :=
  if refsLit.isPrefixOf l then
    let rest := l.drop refsLit.length
    let sp := rest.takeWhile isSpaceChar
    let w := (rest.drop sp.length).takeWhile isWordChar
    if sp.length ≠ 0 ∧ w.length ≠ 0 then some (String.mk w) else none
  else none

/-- `re.search(r'REFERENCES\s+(\w+)', line)`: the match at the leftmost
position where the whole pattern matches, scanning left to right. -/
def searchRef : List Char → Option String
  | [] => none
  | c :: rest =>
    match matchRefAt (c :: rest) with
    | some t => some t
    | none => searchRef rest

/-- `get_table_references(sql_content)`: for each line of the content that
contains the literal `REFERENCES` (case-sensitively), the regex capture, if
any, is added to the result set.  The Python `set` is modelled as a list
deduplicated in first-insertion order. -/
def get_table_references (sql_content : String) : List String :=
  (pySplit '\n' sql_content.toList).foldl
    (fun references line =>
      if refsLit <:+: line then
        match searchRef line with
        | some t => if t ∈ references then references else references ++ [t]
        | none => references
      else references)
    []

/-- `has_transaction_block(sql_content)`: the upper-cased, stripped content
starts with `BEGIN`, contains `BEGIN;`, or starts with `START TRANSACTION`. -/
def has_transaction_block (sql_content : String) : Bool :=
  let sql_upper := String.mk (pyStrip (pyUpper sql_content.toList))
  pyStartsWith sql_upper "BEGIN" ||
  pyContains sql_upper "BEGIN;" ||
  pyStartsWith sql_upper "START TRANSACTION"

/-- `requires_autocommit(sql_content)`: the upper-cased content contains
one of the `AUTOCOMMIT_STATEMENTS` markers. -/
def requires_autocommit (sql_content : String) : Bool :=
  let sql_upper := String.mk (pyUpper sql_content.toList)
  AUTOCOMMIT_STATEMENTS.any (fun stmt => pyContains sql_upper stmt)

/-! ### Migration files and `topological_sort` -/

/-- A migration file: its filename (`Path.name`) and its SQL text. -/
structure MigrationFile where
  name : String
  content : String
deriving DecidableEq, Repr

/-- The ascending order used by `sorted(..., key=lambda f: f.name)`:
`a` may come no later than `b` when `b.name < a.name` is false. -/
def fileLe (a b : MigrationFile) : Prop :=
  pyStrLt b.name.toList a.name.toList = false

instance : DecidableRel fileLe := fun _ _ =>
  inferInstanceAs (Decidable (_ = false))

/-- `sorted(migration_files, key=lambda f: f.name)`: stable ascending sort
by filename (Python string comparison, i.e. code-point lexicographic).
Python's sort is stable, and a stable sort's output is uniquely determined
by the (total) key order, so the stable `insertionSort` is a faithful
model. -/
def sortedByName (files : List MigrationFile) : List MigrationFile :=
  List.insertionSort fileLe files

/-- The `dependencies` dict of `topological_sort`:
`dependencies.get(filename, [])`. -/
def depsOf (files : List MigrationFile) (filename : String) : List String :=
  match files.find? (fun f => f.name = filename) with
  | some f => get_table_references f.content
  | none => []

/-- `next((f for f in migration_files if f.name.startswith(dep_table)), None)`. -/
def resolveDep (files : List MigrationFile) (dep_table : String) :
    Option MigrationFile :=
  files.find? (fun f => pyStartsWith f.name dep_table)

/-- The filenames of the resolvable dependencies of `filename`: each
referenced table that the prefix-match heuristic maps to some file.
Unresolvable references (`dep_file is None`) are skipped, as in the code. -/
def resolvedDepNames (files : List MigrationFile) (filename : String) :
    List String :=
  (depsOf files filename).filterMap
    (fun dep_table => (resolveDep files dep_table).map (fun f => f.name))

/-- `next(f for f in migration_files if f.name == filename)`. -/
def findByName (files : List MigrationFile) (n : String) :
    Option MigrationFile :=
  files.find? (fun f => f.name = n)

/-- The mutable state of the inner `visit` closure: the `visited` set
(modelled as a list, membership only) and the `result` list. -/
def VisitSt : Type := List String × List MigrationFile

/-- The recursive `visit(filename)` of `topological_sort`.  The Python
function terminates because each call marks an unvisited name; here that
implicit measure is made explicit as `fuel`, decremented at each nesting
level.  `topological_sort` passes ample fuel (`length + 1`), which is shown
sufficient by the lemmas below: a chain of nested calls on unvisited names
marks pairwise-distinct filenames, so its depth is at most the number of
files.  A call on an already-visited name returns the state unchanged at
any fuel, exactly as in Python.  If `findByName` failed the Python
generator `next(...)` would raise; that branch is unreachable because
`visit` is only ever invoked on filenames of `files`. -/
def visit (files : List MigrationFile) : Nat → String → VisitSt → VisitSt
  | 0, _, st => st
  | Nat.succ fuel, filename, st =>
    if filename ∈ st.1 then st
    else
      let st1 : VisitSt := (filename :: st.1, st.2)
      let st2 := (resolvedDepNames files filename).foldl
        (fun s depName => visit files fuel depName s) st1
      match findByName files filename with
      | some f => (st2.1, st2.2 ++ [f])
      | none => st2

/-- `topological_sort(migration_files)`: sort by filename, build the
dependency map, then depth-first visit every file in that order. -/
def topological_sort (migration_files : List MigrationFile) :
    List MigrationFile :=
  let sorted := sortedByName migration_files
  (sorted.foldl
    (fun st file => visit sorted (sorted.length + 1) file.name st)
    (([], []) : VisitSt)).2

/-! ### Database-effect model

`apply_migration`, `record_migration` and `process_migration_files` act on
a cursor/connection.  Their observable behaviour is the ordered trace of
operations issued, plus the connection's isolation level.  An environment
oracle `DbEnv` decides, from the trace so far, whether each operation
succeeds (models `psycopg2` raising on `cursor.execute`); a raised
exception propagates as an early `false` return. -/

/-- One operation issued to the database. -/
inductive DbOp where
  /-- `cursor.execute(stmt)`; `ok` records whether it raised. -/
  | exec (stmt : String) (ok : Bool)
  /-- The tracking-table `INSERT INTO applied_migrations ... VALUES (%s)`. -/
  | insertTracking (filename : String) (ok : Bool)
  /-- `conn.set_isolation_level(level)`. -/
  | setIsolation (level : Int)
deriving DecidableEq, Repr

/-- A request whose success the environment decides. -/
inductive DbReq where
  | sql (stmt : String)
  | insert (filename : String)
deriving DecidableEq, Repr

/-- Connection state: the trace of issued operations and the current
isolation level (psycopg2 default level modelled as the initial value). -/
structure DbState where
  history : List DbOp
  isolation : Int
deriving DecidableEq, Repr

/-- The environment oracle: given the trace so far and a request, does the
request succeed? -/
def DbEnv : Type := List DbOp → DbReq → Bool

/-- `cursor.execute(stmt)`: returns the new state and whether it succeeded. -/
def execSql (env : DbEnv) (st : DbState) (stmt : String) : DbState × Bool :=
  let ok := env st.history (DbReq.sql stmt)
  ({ st with history := st.history ++ [DbOp.exec stmt ok] }, ok)

/-- The tracking-table insert issued by `record_migration`. -/
def execInsert (env : DbEnv) (st : DbState) (filename : String) :
    DbState × Bool :=
  let ok := env st.history (DbReq.insert filename)
  ({ st with history := st.history ++ [DbOp.insertTracking filename ok] }, ok)

/-- `conn.set_isolation_level(level)` (never raises in the model). -/
def setIso (st : DbState) (level : Int) : DbState :=
  { history := st.history ++ [DbOp.setIsolation level], isolation := level }

/-- The statements executed in autocommit mode: `sql.split(';')`, each
fragment stripped, empty fragments skipped. -/
def autocommitStatements (sql : String) : List String :=
  ((pySplit ';' sql.toList).map (fun l => String.mk (pyStrip l))).filter
    (fun s => s ≠ "")

/-- The `for statement in sql.split(';')` loop inside the `try` block:
executes each statement until one raises; the exception propagates. -/
def runAutocommitStmts (env : DbEnv) (st : DbState) :
    List String → DbState × Bool
  | [] => (st, true)
  | s :: rest =>
    let r := execSql env st s
    if r.2 then runAutocommitStmts env r.1 rest else (r.1, false)

/-- `apply_migration(cursor, migration_file)`.  Three modes, selected in
priority order from the file content; the Boolean result records whether
the call completed without an exception. -/
def apply_migration (env : DbEnv) (st : DbState) (migration_file : MigrationFile) :
    DbState × Bool :=
  let sql := migration_file.content
  if requires_autocommit sql then
    -- autocommit mode: switch isolation level, run each statement,
    -- restore the level in a `finally` (i.e. on both outcomes)
    let old_isolation := st.isolation
    let st1 := setIso st 0
    let r := runAutocommitStmts env st1 (autocommitStatements sql)
    (setIso r.1 old_isolation, r.2)
  else if has_transaction_block sql then
    -- self-managed transaction mode: execute the file verbatim
    execSql env st sql
  else
    -- wrapped mode: BEGIN, the whole file as one block, COMMIT
    let r1 := execSql env st "BEGIN;"
    if r1.2 then
      let r2 := execSql env r1.1 sql
      if r2.2 then execSql env r2.1 "COMMIT;" else (r2.1, false)
    else (r1.1, false)

/-- `record_migration(cursor, filename)`: BEGIN, tracking insert, COMMIT. -/
def record_migration (env : DbEnv) (st : DbState) (filename : String) :
    DbState × Bool :=
  let r1 := execSql env st "BEGIN;"
  if r1.2 then
    let r2 := execInsert env r1.1 filename
    if r2.2 then execSql env r2.1 "COMMIT;" else (r2.1, false)
  else (r1.1, false)

/-- `process_migration_files(cursor, migration_files, applied_migrations)`.
Returns the final state and `some 1` if the run called `sys.exit(1)`
(`none` = completed normally).  On any exception from applying or
recording, a `ROLLBACK` is attempted — its own failure is logged and
otherwise ignored — and the process exits with status 1 without touching
any later file. -/
def process_migration_files (env : DbEnv) (st : DbState)
    (migration_files : List MigrationFile) (applied_migrations : List String) :
    DbState × Option Nat :=
  match migration_files with
  | [] => (st, none)
  | f :: rest =>
    if f.name ∈ applied_migrations then
      process_migration_files env st rest applied_migrations
    else
      let r1 := apply_migration env st f
      if r1.2 then
        let r2 := record_migration env r1.1 f.name
        if r2.2 then process_migration_files env r2.1 rest applied_migrations
        else ((execSql env r2.1 "ROLLBACK;").1, some 1)
      else ((execSql env r1.1 "ROLLBACK;").1, some 1)

/-- `run_migrations(cursor, applied_migrations)`: a missing directory or an
empty file list is a logged no-op; otherwise the sorted files are
processed.  Directory existence and the glob result are parameters (they
are filesystem inputs). -/
def run_migrations (env : DbEnv) (st : DbState) (dirExists : Bool)
    (files : List MigrationFile) (applied_migrations : List String) :
    DbState × Option Nat :=
  if !dirExists then (st, none)
  else if files.isEmpty then (st, none)
  else process_migration_files env st (topological_sort files) applied_migrations

/-- The process exit status of `main()`.  `databaseUrl` is
`os.getenv("DATABASE_URL")` (`if not connection_string` also treats the
empty string as unset); `connectOk` is whether `psycopg2.connect`
succeeded (failure exits 1 via the `except psycopg2.Error` handler).
Creating the tracking table and loading the applied set are modelled as
succeeding; a normally completed run exits 0. -/
def main_exit (databaseUrl : Option String) (connectOk : Bool) (env : DbEnv)
    (dirExists : Bool) (files : List MigrationFile)
    (applied_migrations : List String) : Nat :=
  match databaseUrl with
  | none => 1
  | some s =>
    if s = "" then 1
    else if !connectOk then 1
    else
      match (run_migrations env { history := [], isolation := 1 } dirExists
              files applied_migrations).2 with
      | some code => code
      | none => 0

/-! ### Auxiliary notions used by the theorems -/

/-- Index of the first occurrence of `n` in a list of names (`l.length` if
absent). -/
def posOf (n : String) : List String → Nat
  | [] => 0
  | m :: rest => if m = n then 0 else posOf n rest + 1

/-- The filenames of a list of migration files. -/
def names (l : List MigrationFile) : List String :=
  l.map (fun f => f.name)

/-- Number of filenames of `files` (deduplicated) not yet in the visited
set `V`: the implicit termination measure of the Python `visit`. -/
def unvisitedCount (files : List MigrationFile) (V : List String) : Nat :=
  (((names files).dedup).filter (fun x => !(decide (x ∈ V)))).length

/-- `res` is dependency-closed: every file in `res` is preceded by all of
its resolvable dependencies. -/
def depClosed (files : List MigrationFile) (res : List MigrationFile) : Prop :=
  ∀ l1 f l2, res = l1 ++ f :: l2 →
    ∀ g, g ∈ resolvedDepNames files f.name → g ∈ names l1

/-- Does this operation insert a tracking record for `fn`? -/
def isTrackingInsertFor (fn : String) : DbOp → Bool
  | DbOp.insertTracking n _ => n = fn
  | _ => false

/-- Statements the runner itself is allowed to issue on behalf of the file
list `files`: its own transaction-control statements, a file's verbatim
content, or a trimmed autocommit fragment of a file's content. -/
def allowedStmt (files : List MigrationFile) (s : String) : Prop :=
  s = "BEGIN;" ∨ s = "COMMIT;" ∨ s = "ROLLBACK;" ∨
  ∃ f ∈ files, s = f.content ∨ s ∈ autocommitStatements f.content

/-- The operation trace of a fully successful `apply_migration` of `f`
starting at isolation level `iso`. -/
def applyOps (f : MigrationFile) (iso : Int) : List DbOp :=
  if requires_autocommit f.content then
    DbOp.setIsolation 0 ::
      ((autocommitStatements f.content).map (fun s => DbOp.exec s true) ++
        [DbOp.setIsolation iso])
  else if has_transaction_block f.content then
    [DbOp.exec f.content true]
  else
    [DbOp.exec "BEGIN;" true, DbOp.exec f.content true,
     DbOp.exec "COMMIT;" true]

/-- The operation trace contributed by one file in a fully successful run:
nothing if it is already applied, otherwise its application followed by its
own begin/insert/commit tracking transaction. -/
def perFileOps (applied : List String) (iso : Int) (f : MigrationFile) :
    List DbOp :=
  if f.name ∈ applied then []
  else
    applyOps f iso ++
      [DbOp.exec "BEGIN;" true, DbOp.insertTracking f.name true,
       DbOp.exec "COMMIT;" true]

/-- Frame property of one `visit` call: the result list is only appended
to; the visited set grows by exactly the names of the appended files, which
are fresh, pairwise distinct, drawn from `files` via `findByName`, and each
is either the visited name itself or a resolvable dependency of some file. -/
def VisitFrame (files : List MigrationFile) (fuel : Nat) : Prop :=
  ∀ n st, n ∈ names files → ∃ Δ : List MigrationFile,
    (visit files fuel n st).2 = st.2 ++ Δ ∧
    (∀ x, x ∈ (visit files fuel n st).1 ↔ x ∈ st.1 ∨ x ∈ names Δ) ∧
    (names Δ).Nodup ∧
    (∀ f ∈ Δ, f.name ∉ st.1) ∧
    (∀ f ∈ Δ, findByName files f.name = some f) ∧
    (∀ f ∈ Δ, f.name = n ∨
      ∃ p ∈ names files, f.name ∈ resolvedDepNames files p)

/-- Frame property of a fold of `visit` over a list of names. -/
def FoldFrame (files : List MigrationFile) (fuel : Nat) : Prop :=
  ∀ (ds : List String) (st : VisitSt), (∀ d ∈ ds, d ∈ names files) →
  ∃ Δ : List MigrationFile,
    (ds.foldl (fun s d => visit files fuel d s) st).2 = st.2 ++ Δ ∧
    (∀ x, x ∈ (ds.foldl (fun s d => visit files fuel d s) st).1 ↔
      x ∈ st.1 ∨ x ∈ names Δ) ∧
    (names Δ).Nodup ∧
    (∀ f ∈ Δ, f.name ∉ st.1) ∧
    (∀ f ∈ Δ, findByName files f.name = some f) ∧
    (∀ f ∈ Δ, f.name ∈ ds ∨
      ∃ p ∈ names files, f.name ∈ resolvedDepNames files p)

/-- Invariant property of one `visit` call under a rank function that
strictly decreases along resolvable dependencies: relative to the ghost
recursion stack `P`, the visited set stays exactly the result names plus
`P`, the result stays dependency-closed, and the visited name ends up
visited. -/
def VisitRank (files : List MigrationFile) (rank : String → Nat)
    (fuel : Nat) : Prop :=
  ∀ n (st : VisitSt) (P : List String),
    (∀ x, x ∈ st.1 ↔ x ∈ names st.2 ∨ x ∈ P) →
    (∀ p ∈ P, rank n < rank p) →
    fuel ≥ unvisitedCount files st.1 + 1 →
    depClosed files st.2 →
    n ∈ names files →
    (∀ x, x ∈ (visit files fuel n st).1 ↔
      x ∈ names (visit files fuel n st).2 ∨ x ∈ P) ∧
    depClosed files (visit files fuel n st).2 ∧
    n ∈ (visit files fuel n st).1

/-- Fold version of `VisitRank`. -/
def FoldRank (files : List MigrationFile) (rank : String → Nat)
    (fuel : Nat) : Prop :=
  ∀ (ds : List String) (st : VisitSt) (P : List String),
    (∀ x, x ∈ st.1 ↔ x ∈ names st.2 ∨ x ∈ P) →
    (∀ d ∈ ds, ∀ p ∈ P, rank d < rank p) →
    fuel ≥ unvisitedCount files st.1 + 1 →
    depClosed files st.2 →
    (∀ d ∈ ds, d ∈ names files) →
    (∀ x, x ∈ (ds.foldl (fun s d => visit files fuel d s) st).1 ↔
      x ∈ names (ds.foldl (fun s d => visit files fuel d s) st).2 ∨ x ∈ P) ∧
    depClosed files (ds.foldl (fun s d => visit files fuel d s) st).2 ∧
    (∀ d ∈ ds, d ∈ (ds.foldl (fun s d => visit files fuel d s) st).1)

/-! ### Concrete inputs used to instantiate the theorems -/

/-- The spec's ordering example: `a_table.sql` references table `b`. -/
def a_table : MigrationFile :=
  ⟨"a_table.sql", "CREATE TABLE a (b_id INT);\nFOREIGN KEY REFERENCES b\n"⟩

/-- The spec's ordering example: `b_table.sql` defines `b`, no references. -/
def b_table : MigrationFile := ⟨"b_table.sql", "CREATE TABLE b (id INT);"⟩

/-- `a.sql` references table `c`, pulling `c.sql` ahead of `b.sql`. -/
def demoA : MigrationFile := ⟨"a.sql", "FOREIGN KEY REFERENCES c\n"⟩

/-- `b.sql`: no references. -/
def demoB : MigrationFile := ⟨"b.sql", "CREATE TABLE b (x INT);"⟩

/-- `c.sql`: no references. -/
def demoC : MigrationFile := ⟨"c.sql", "CREATE TABLE c (x INT);"⟩

/-- `d.sql` references table `d`: its own name matches, a self-dependency. -/
def demoD : MigrationFile :=
  ⟨"d.sql", "ALTER TABLE d ADD FOREIGN KEY REFERENCES d\n"⟩

/-- The counterexample input for the ordering guarantee. -/
def demoFiles : List MigrationFile := [demoA, demoB, demoC, demoD]

/-- Cycle example: `x.sql` and `y.sql` reference each other's tables. -/
def cycleX : MigrationFile := ⟨"x.sql", "REFERENCES y\n"⟩

/-- Cycle example: see `cycleX`. -/
def cycleY : MigrationFile := ⟨"y.sql", "REFERENCES x\n"⟩

/-- An environment in which every database operation succeeds. -/
def envTrue : DbEnv := fun _ _ => true

/-- An environment in which executing the statement `BAD` raises and
everything else succeeds. -/
def envBad : DbEnv := fun _ req =>
  match req with
  | DbReq.sql s => !(s == "BAD")
  | DbReq.insert _ => true

/-- A plain wrapped-mode migration file. -/
def demoWrapped : MigrationFile := ⟨"m.sql", "CREATE TABLE x (id INT);"⟩

/-- An autocommit-mode migration file with two statements. -/
def demoAuto : MigrationFile :=
  ⟨"db.sql", "CREATE DATABASE foo; DROP DATABASE bar;"⟩

/-- A migration file whose single statement fails under `envBad`. -/
def demoBad : MigrationFile := ⟨"002_bad.sql", "BAD"⟩

/-- The initial connection state: empty trace, default isolation level. -/
def st0 : DbState := { history := [], isolation := 1 }

/-! ### Order lemmas for `pyStrLt` -/

lemma pyStrLt_irrefl : ∀ l : List Char, pyStrLt l l = false := by
  intro l
  induction l with
  | nil => rfl
  | cons c rest ih => simp [pyStrLt, ih]

lemma pyStrLt_trichotomy :
    ∀ a b : List Char, a = b ∨ pyStrLt a b = true ∨ pyStrLt b a = true := by
  intro a
  induction a with
  | nil =>
    intro b
    cases b with
    | nil => left; rfl
    | cons y ys => right; left; rfl
  | cons x xs ih =>
    intro b
    cases b with
    | nil => right; right; rfl
    | cons y ys =>
      by_cases hxy : x = y
      · subst hxy
        rcases ih ys with h | h | h
        · left; rw [h]
        · right; left; simp [pyStrLt, h]
        · right; right; simp [pyStrLt, h]
      · rcases Nat.lt_trichotomy x.toNat y.toNat with h | h | h
        · right; left; simp [pyStrLt, hxy, h]
        · exact absurd (Char.eq_of_val_eq (UInt32.ext h)) hxy
        · right; right
          have hyx : ¬ y = x := fun hc => hxy hc.symm
          simp [pyStrLt, hyx, h]

lemma pyStrLt_asymm :
    ∀ a b : List Char, pyStrLt a b = true → pyStrLt b a = false := by
  intro a
  induction a with
  | nil =>
    intro b _
    cases b with
    | nil => rfl
    | cons y ys => rfl
  | cons x xs ih =>
    intro b hab
    cases b with
    | nil => simp [pyStrLt] at hab
    | cons y ys =>
      by_cases hxy : x = y
      · subst hxy
        simp [pyStrLt] at hab ⊢
        exact ih ys hab
      · have hyx : ¬ y = x := fun hc => hxy hc.symm
        simp [pyStrLt, hxy] at hab
        simp [pyStrLt, hyx]
        omega

lemma pyStrLt_trans :
    ∀ a b c : List Char, pyStrLt a b = true → pyStrLt b c = true →
      pyStrLt a c = true := by
  intro a
  induction a with
  | nil =>
    intro b c hab hbc
    cases b with
    | nil => simp [pyStrLt] at hab
    | cons y ys =>
      cases c with
      | nil => simp [pyStrLt] at hbc
      | cons z zs => rfl
  | cons x xs ih =>
    intro b c hab hbc
    cases b with
    | nil => simp [pyStrLt] at hab
    | cons y ys =>
      cases c with
      | nil => simp [pyStrLt] at hbc
      | cons z zs =>
        by_cases hxy : x = y
        · subst hxy
          simp [pyStrLt] at hab
          by_cases hyz : x = z
          · subst hyz
            simp [pyStrLt] at hbc ⊢
            exact ih ys zs hab hbc
          · simp [pyStrLt, hyz] at hbc ⊢
            exact hbc
        · simp [pyStrLt, hxy] at hab
          by_cases hyz : y = z
          · subst hyz
            simp [pyStrLt, hxy]
            exact hab
          · simp [pyStrLt, hyz] at hbc
            have hxz : ¬ x = z := by
              intro hc
              subst hc
              omega
            simp [pyStrLt, hxz]
            omega

/-- `fileLe` is total. -/
lemma fileLe_total : ∀ a b : MigrationFile, fileLe a b ∨ fileLe b a := by
  intro a b
  unfold fileLe
  rcases pyStrLt_trichotomy a.name.toList b.name.toList with h | h | h
  · left; rw [h]; exact pyStrLt_irrefl _
  · left; exact pyStrLt_asymm _ _ h
  · right; exact pyStrLt_asymm _ _ h

/-- `fileLe` is transitive. -/
lemma fileLe_trans : ∀ a b c : MigrationFile,
    fileLe a b → fileLe b c → fileLe a c := by
  intro a b c hab hbc
  unfold fileLe at hab hbc ⊢
  by_contra hlt
  have hca : pyStrLt c.name.toList a.name.toList = true := by
    cases h : pyStrLt c.name.toList a.name.toList
    · exact absurd h hlt
    · rfl
  rcases pyStrLt_trichotomy a.name.toList b.name.toList with h | h | h
  · rw [← h] at hbc
    rw [hbc] at hca
    exact Bool.noConfusion hca
  · have := pyStrLt_trans _ _ _ hca h
    rw [this] at hbc
    exact Bool.noConfusion hbc
  · rw [h] at hab
    exact Bool.noConfusion hab

/-! ### Basic utilities: `findByName`, `names`, `posOf`, counting -/

lemma names_append (l1 l2 : List MigrationFile) :
    names (l1 ++ l2) = names l1 ++ names l2 := by
  simp [names]

lemma findByName_spec {files : List MigrationFile} {n : String}
    {f : MigrationFile} (h : findByName files n = some f) :
    f ∈ files ∧ f.name = n := by
  refine ⟨List.mem_of_find?_eq_some h, ?_⟩
  have := List.find?_some h
  simpa using this

lemma findByName_isSome_of_mem {files : List MigrationFile} {n : String}
    (h : n ∈ names files) : ∃ f, findByName files n = some f := by
  rcases List.mem_map.1 h with ⟨f, hf, hfn⟩
  cases hfind : findByName files n with
  | some g => exact ⟨g, rfl⟩
  | none =>
    unfold findByName at hfind
    rw [List.find?_eq_none] at hfind
    exact absurd (by simpa using hfn) (by simpa using hfind f hf)

lemma findByName_none_of_not_mem {files : List MigrationFile} {n : String}
    (h : n ∉ names files) : findByName files n = none := by
  unfold findByName
  rw [List.find?_eq_none]
  intro f hf hc
  exact h (List.mem_map.2 ⟨f, hf, by simpa using hc⟩)

/-- With pairwise-distinct filenames, `findByName` of a member's name
returns that member. -/
lemma findByName_of_nodup {files : List MigrationFile}
    (hnd : (names files).Nodup) {f : MigrationFile} (hf : f ∈ files) :
    findByName files f.name = some f := by
  induction files with
  | nil => cases hf
  | cons g rest ih =>
    rcases List.mem_cons.1 hf with rfl | hmem
    · simp [findByName]
    · have hgname : g.name ≠ f.name := by
        intro hc
        have : g.name ∈ names rest :=
          hc ▸ List.mem_map.2 ⟨f, hmem, rfl⟩
        exact (List.nodup_cons.1 hnd).1 this
      have ih' := ih (List.nodup_cons.1 hnd).2 hmem
      simp only [findByName, List.find?] at ih' ⊢
      have : (decide (g.name = f.name)) = false := by
        simpa using hgname
      rw [this]
      exact ih'

lemma resolveDep_mem {files : List MigrationFile} {d : String}
    {f : MigrationFile} (h : resolveDep files d = some f) : f ∈ files :=
  List.mem_of_find?_eq_some h

lemma resolvedDepNames_subset {files : List MigrationFile} {n d : String}
    (h : d ∈ resolvedDepNames files n) : d ∈ names files := by
  rcases List.mem_filterMap.1 h with ⟨t, _, ht⟩
  cases hres : resolveDep files t with
  | none => rw [hres] at ht; cases ht
  | some f =>
    rw [hres] at ht
    simp only [Option.map_some'] at ht
    cases ht
    exact List.mem_map.2 ⟨f, resolveDep_mem hres, rfl⟩

lemma resolvedDepNames_of_not_mem {files : List MigrationFile} {n : String}
    (h : n ∉ names files) : resolvedDepNames files n = [] := by
  have hfind : files.find? (fun f => f.name = n) = none := by
    rw [List.find?_eq_none]
    intro f hf hc
    exact h (List.mem_map.2 ⟨f, hf, by simpa using hc⟩)
  simp [resolvedDepNames, depsOf, hfind]

lemma posOf_append_of_mem {n : String} :
    ∀ {l1 : List String} (l2 : List String), n ∈ l1 →
      posOf n (l1 ++ l2) = posOf n l1 := by
  intro l1
  induction l1 with
  | nil => intro l2 h; cases h
  | cons m rest ih =>
    intro l2 h
    by_cases hm : m = n
    · simp [posOf, hm]
    · have : n ∈ rest := by
        rcases List.mem_cons.1 h with rfl | h'
        · exact absurd rfl hm
        · exact h'
      simp [posOf, hm, ih l2 this]

lemma posOf_lt_length {n : String} :
    ∀ {l : List String}, n ∈ l → posOf n l < l.length := by
  intro l
  induction l with
  | nil => intro h; cases h
  | cons m rest ih =>
    intro h
    by_cases hm : m = n
    · simp [posOf, hm]
    · have : n ∈ rest := by
        rcases List.mem_cons.1 h with rfl | h'
        · exact absurd rfl hm
        · exact h'
      simp only [posOf, hm, if_false, List.length_cons]
      exact Nat.succ_lt_succ (ih this)

lemma posOf_append_of_not_mem {n : String} :
    ∀ {l1 : List String} (l2 : List String), n ∉ l1 →
      posOf n (l1 ++ l2) = l1.length + posOf n l2 := by
  intro l1
  induction l1 with
  | nil => intro l2 _; simp
  | cons m rest ih =>
    intro l2 h
    have hm : m ≠ n := fun hc => h (hc ▸ List.mem_cons_self m rest)
    have hn : n ∉ rest := fun hc => h (List.mem_cons_of_mem m hc)
    show posOf n (m :: (rest ++ l2)) = (m :: rest).length + posOf n l2
    have e : posOf n (m :: (rest ++ l2)) = posOf n (rest ++ l2) + 1 := by
      simp [posOf, hm]
    rw [e, ih l2 hn]
    simp only [List.length_cons]
    omega

/-- Length of a filter is monotone in the predicate. -/
lemma filter_length_mono {α : Type} (p q : α → Bool)
    (h : ∀ a, p a = true → q a = true) :
    ∀ l : List α, (l.filter p).length ≤ (l.filter q).length := fun l =>
  (List.monotone_filter_right l h).length_le

/-- Marking more names visited cannot increase the unvisited count. -/
lemma unvisitedCount_mono {files : List MigrationFile} {V V' : List String}
    (h : ∀ x, x ∈ V → x ∈ V') :
    unvisitedCount files V' ≤ unvisitedCount files V := by
  apply filter_length_mono
  intro a ha
  simp only [Bool.not_eq_true', decide_eq_false_iff_not] at ha ⊢
  exact fun hc => ha (h a hc)

/-- Marking a fresh filename strictly decreases the unvisited count. -/
lemma unvisitedCount_lt {files : List MigrationFile} {V : List String}
    {n : String} (hn : n ∈ names files) (hnv : n ∉ V) :
    unvisitedCount files (n :: V) + 1 ≤ unvisitedCount files V := by
  unfold unvisitedCount
  have hmem : n ∈ (names files).dedup := List.mem_dedup.2 hn
  have hnd : (names files).dedup.Nodup := List.nodup_dedup _
  revert hmem hnd
  generalize (names files).dedup = l
  induction l with
  | nil => intro h _; cases h
  | cons a rest ih =>
    intro hmem hnd
    by_cases ha : a = n
    · subst ha
      have e1 : (a :: rest).filter (fun x => !(decide (x ∈ a :: V))) =
          rest.filter (fun x => !(decide (x ∈ a :: V))) := by
        simp [List.filter_cons]
      have e2 : (a :: rest).filter (fun x => !(decide (x ∈ V))) =
          a :: rest.filter (fun x => !(decide (x ∈ V))) := by
        simp [List.filter_cons, hnv]
      rw [e1, e2]
      simp only [List.length_cons]
      have hmono : (rest.filter (fun x => !(decide (x ∈ a :: V)))).length ≤
          (rest.filter (fun x => !(decide (x ∈ V)))).length := by
        apply filter_length_mono
        intro x hx
        simp only [Bool.not_eq_true', decide_eq_false_iff_not,
          List.mem_cons, not_or] at hx ⊢
        exact hx.2
      omega
    · have hmem' : n ∈ rest := by
        rcases List.mem_cons.1 hmem with rfl | h
        · exact absurd rfl ha
        · exact h
      have ih' := ih hmem' (List.nodup_cons.1 hnd).2
      by_cases hav : a ∈ V
      · have e1 : (a :: rest).filter (fun x => !(decide (x ∈ n :: V))) =
            rest.filter (fun x => !(decide (x ∈ n :: V))) := by
          simp [List.filter_cons, hav]
        have e2 : (a :: rest).filter (fun x => !(decide (x ∈ V))) =
            rest.filter (fun x => !(decide (x ∈ V))) := by
          simp [List.filter_cons, hav]
        rw [e1, e2]
        exact ih'
      · have e1 : (a :: rest).filter (fun x => !(decide (x ∈ n :: V))) =
            a :: rest.filter (fun x => !(decide (x ∈ n :: V))) := by
          simp [List.filter_cons, ha, hav]
        have e2 : (a :: rest).filter (fun x => !(decide (x ∈ V))) =
            a :: rest.filter (fun x => !(decide (x ∈ V))) := by
          simp [List.filter_cons, hav]
        rw [e1, e2]
        simp only [List.length_cons]
        omega

/-- The unvisited count never exceeds the number of files. -/
lemma unvisitedCount_le (files : List MigrationFile) (V : List String) :
    unvisitedCount files V ≤ files.length := by
  unfold unvisitedCount
  calc ((names files).dedup.filter _).length
      ≤ (names files).dedup.length := List.length_filter_le _ _
    _ ≤ (names files).length := (List.dedup_sublist _).length_le
    _ = files.length := by simp [names]

/-! ### The frame lemma for `visit` -/

lemma foldFrame_of_visitFrame {files : List MigrationFile} {fuel : Nat}
    (hv : VisitFrame files fuel) : FoldFrame files fuel := by
  intro ds
  induction ds with
  | nil =>
    intro st _
    exact ⟨[], by simp, by simp [names], by simp [names], by simp,
      by simp, by simp⟩
  | cons d rest ih =>
    intro st hds
    have hd : d ∈ names files := hds d (List.mem_cons_self d rest)
    obtain ⟨Δ1, h1, h2, h3, h4, h5, h6⟩ := hv d st hd
    obtain ⟨Δ2, g1, g2, g3, g4, g5, g6⟩ :=
      ih (visit files fuel d st)
        (fun x hx => hds x (List.mem_cons_of_mem d hx))
    have hfold : (d :: rest).foldl (fun s x => visit files fuel x s) st =
        rest.foldl (fun s x => visit files fuel x s) (visit files fuel d st) :=
      rfl
    refine ⟨Δ1 ++ Δ2, ?_, ?_, ?_, ?_, ?_, ?_⟩
    · rw [hfold, g1, h1, List.append_assoc]
    · intro x
      rw [hfold]
      rw [g2 x, h2 x, names_append, List.mem_append]
      tauto
    · rw [names_append]
      apply List.Nodup.append h3 g3
      intro a ha1 ha2
      rcases List.mem_map.1 ha2 with ⟨f, hf, rfl⟩
      exact g4 f hf ((h2 f.name).2 (Or.inr ha1))
    · intro f hf
      rcases List.mem_append.1 hf with hf1 | hf2
      · exact h4 f hf1
      · exact fun hc => g4 f hf2 ((h2 f.name).2 (Or.inl hc))
    · intro f hf
      rcases List.mem_append.1 hf with hf1 | hf2
      · exact h5 f hf1
      · exact g5 f hf2
    · intro f hf
      rcases List.mem_append.1 hf with hf1 | hf2
      · rcases h6 f hf1 with h | h
        · exact Or.inl (h ▸ List.mem_cons_self d rest)
        · exact Or.inr h
      · rcases g6 f hf2 with h | h
        · exact Or.inl (List.mem_cons_of_mem d h)
        · exact Or.inr h

lemma visit_frame (files : List MigrationFile) :
    ∀ fuel : Nat, VisitFrame files fuel := by
  intro fuel
  induction fuel with
  | zero =>
    intro n st _
    exact ⟨[], by simp [visit], fun x => by simp [visit, names],
      by simp [names], by simp, by simp, by simp⟩
  | succ fuel ih =>
    intro n st hn
    by_cases hvis : n ∈ st.1
    · refine ⟨[], ?_, ?_, ?_, ?_, ?_, ?_⟩ <;>
        simp [visit, hvis, names]
    · obtain ⟨fa, hfind⟩ := findByName_isSome_of_mem hn
      obtain ⟨hfa_mem, hfa_name⟩ := findByName_spec hfind
      set st1 : VisitSt := (n :: st.1, st.2) with hst1
      set st2 := (resolvedDepNames files n).foldl
        (fun s d => visit files fuel d s) st1 with hst2
      have hds : ∀ d ∈ resolvedDepNames files n, d ∈ names files :=
        fun d hd => resolvedDepNames_subset hd
      obtain ⟨Δin, f1, f2, f3, f4, f5, f6⟩ :=
        foldFrame_of_visitFrame ih (resolvedDepNames files n) st1 hds
      have hunfold : visit files (Nat.succ fuel) n st =
          (st2.1, st2.2 ++ [fa]) := by
        simp only [visit]
        rw [if_neg hvis, ← hst1, ← hst2, hfind]
      have hst1' : st1.1 = n :: st.1 := rfl
      have hst1'' : st1.2 = st.2 := rfl
      refine ⟨Δin ++ [fa], ?_, ?_, ?_, ?_, ?_, ?_⟩
      · rw [hunfold]
        show st2.2 ++ [fa] = st.2 ++ (Δin ++ [fa])
        rw [f1, hst1'', List.append_assoc]
      · intro x
        rw [hunfold]
        show x ∈ st2.1 ↔ _
        rw [f2 x, hst1', names_append]
        simp only [names, List.map_cons, List.map_nil, List.mem_append,
          List.mem_cons, List.mem_singleton, hfa_name]
        constructor
        · rintro (h | h)
          · rcases h with h | h
            · exact Or.inr (Or.inr (Or.inl h))
            · exact Or.inl h
          · exact Or.inr (Or.inl h)
        · rintro (h | h | h | h)
          · exact Or.inl (Or.inr h)
          · exact Or.inr h
          · exact Or.inl (Or.inl h)
          · cases h
      · rw [names_append]
        apply List.Nodup.append f3
        · simp [names, hfa_name]
        · intro a ha1 ha2
          simp only [names, List.map_cons, List.map_nil,
            List.mem_singleton, hfa_name] at ha2
          rcases List.mem_map.1 ha1 with ⟨f, hf, hfn⟩
          have hb : f.name ∉ st1.1 := f4 f hf
          rw [hst1'] at hb
          apply hb
          rw [hfn, ha2]
          exact List.mem_cons_self n st.1
      · intro f hf
        rcases List.mem_append.1 hf with hf1 | hf2
        · intro hc
          exact f4 f hf1 (hst1' ▸ List.mem_cons_of_mem n hc)
        · rcases List.mem_singleton.1 hf2 with rfl
          rw [hfa_name]
          exact hvis
      · intro f hf
        rcases List.mem_append.1 hf with hf1 | hf2
        · exact f5 f hf1
        · rcases List.mem_singleton.1 hf2 with rfl
          rw [hfa_name]
          exact hfind
      · intro f hf
        rcases List.mem_append.1 hf with hf1 | hf2
        · rcases f6 f hf1 with h | h
          · exact Or.inr ⟨n, hn, h⟩
          · exact Or.inr h
        · rcases List.mem_singleton.1 hf2 with rfl
          exact Or.inl hfa_name

/-! ### Monotonicity and completeness of `visit` -/

lemma visit_mono {files : List MigrationFile} {fuel : Nat} {n : String}
    {st : VisitSt} (hn : n ∈ names files) {x : String} (hx : x ∈ st.1) :
    x ∈ (visit files fuel n st).1 := by
  obtain ⟨Δ, _, h2, _, _, _, _⟩ := visit_frame files fuel n st hn
  exact (h2 x).2 (Or.inl hx)

lemma fold_mono {files : List MigrationFile} {fuel : Nat} {ds : List String}
    {st : VisitSt} (hds : ∀ d ∈ ds, d ∈ names files) {x : String}
    (hx : x ∈ st.1) :
    x ∈ (ds.foldl (fun s d => visit files fuel d s) st).1 := by
  obtain ⟨Δ, _, h2, _, _, _, _⟩ :=
    foldFrame_of_visitFrame (visit_frame files fuel) ds st hds
  exact (h2 x).2 (Or.inl hx)

lemma unvisitedCount_pos {files : List MigrationFile} {V : List String}
    {n : String} (hn : n ∈ names files) (hnv : n ∉ V) :
    1 ≤ unvisitedCount files V := by
  have : n ∈ ((names files).dedup).filter (fun x => !(decide (x ∈ V))) :=
    List.mem_filter.2 ⟨List.mem_dedup.2 hn, by simpa using hnv⟩
  have := List.length_pos.2 (List.ne_nil_of_mem this)
  exact this

lemma visit_complete {files : List MigrationFile} {fuel : Nat} {n : String}
    {st : VisitSt} (hn : n ∈ names files)
    (hfuel : unvisitedCount files st.1 + 1 ≤ fuel) :
    n ∈ (visit files fuel n st).1 := by
  by_cases hvis : n ∈ st.1
  · exact visit_mono hn hvis
  · have hpos : 1 ≤ unvisitedCount files st.1 := unvisitedCount_pos hn hvis
    obtain ⟨fuel', rfl⟩ : ∃ k, fuel = Nat.succ k := by
      cases fuel with
      | zero => omega
      | succ k => exact ⟨k, rfl⟩
    obtain ⟨fa, hfind⟩ := findByName_isSome_of_mem hn
    have hmem : n ∈ ((resolvedDepNames files n).foldl
        (fun s d => visit files fuel' d s) (n :: st.1, st.2)).1 :=
      fold_mono (fun d hd => resolvedDepNames_subset hd)
        (List.mem_cons_self n st.1)
    simp only [visit]
    rw [if_neg hvis, hfind]
    exact hmem

lemma fold_complete {files : List MigrationFile} {fuel : Nat} :
    ∀ (ds : List String) (st : VisitSt),
      (∀ d ∈ ds, d ∈ names files) →
      unvisitedCount files st.1 + 1 ≤ fuel →
      ∀ d ∈ ds, d ∈ (ds.foldl (fun s x => visit files fuel x s) st).1 := by
  intro ds
  induction ds with
  | nil => intro st _ _ d hd; cases hd
  | cons d rest ih =>
    intro st hds hfuel x hx
    have hd : d ∈ names files := hds d (List.mem_cons_self d rest)
    have hsub : st.1 ⊆ (visit files fuel d st).1 :=
      fun y hy => visit_mono hd hy
    have hfuel' :
        unvisitedCount files (visit files fuel d st).1 + 1 ≤ fuel := by
      have := @unvisitedCount_mono files st.1 (visit files fuel d st).1 hsub
      omega
    have hrest : ∀ y ∈ rest, y ∈ names files :=
      fun y hy => hds y (List.mem_cons_of_mem d hy)
    rcases List.mem_cons.1 hx with rfl | hx'
    · exact fold_mono hrest (visit_complete hd hfuel)
    · exact ih (visit files fuel d st) hrest hfuel' x hx'

/-! ### Dependency-closure of the result under a rank function -/

lemma append_singleton_eq {α : Type} {l l1 l2 : List α} {a f : α}
    (h : l ++ [a] = l1 ++ f :: l2) :
    (l1 = l ∧ f = a ∧ l2 = []) ∨
    ∃ l2', l2 = l2' ++ [a] ∧ l = l1 ++ f :: l2' := by
  rcases List.eq_nil_or_concat l2 with rfl | ⟨l2', a', rfl⟩
  · obtain ⟨h1, h2⟩ := List.append_inj' h (by simp)
    left
    exact ⟨h1.symm, by simpa using h2.symm, rfl⟩
  · rw [List.concat_eq_append] at h ⊢
    rw [show l1 ++ f :: (l2' ++ [a']) = (l1 ++ f :: l2') ++ [a'] by simp]
      at h
    obtain ⟨h1, h2⟩ := List.append_inj' h (by simp)
    right
    exact ⟨l2', by rw [show a' = a by simpa using h2.symm], h1⟩

lemma depClosed_append_singleton {files : List MigrationFile}
    {res : List MigrationFile} {fa : MigrationFile}
    (hres : depClosed files res)
    (hfa : ∀ g ∈ resolvedDepNames files fa.name, g ∈ names res) :
    depClosed files (res ++ [fa]) := by
  intro l1 f l2 heq g hg
  rcases append_singleton_eq heq with ⟨rfl, rfl, rfl⟩ | ⟨l2', _, hres_eq⟩
  · exact hfa g hg
  · exact hres l1 f l2' hres_eq g hg

lemma foldRank_of_visitRank {files : List MigrationFile}
    {rank : String → Nat} {fuel : Nat}
    (hv : VisitRank files rank fuel) : FoldRank files rank fuel := by
  intro ds
  induction ds with
  | nil =>
    intro st P h1 _ _ h4 _
    exact ⟨h1, h4, fun d hd => absurd hd (List.not_mem_nil d)⟩
  | cons d rest ih =>
    intro st P h1 h2 h3 h4 h5
    have hd : d ∈ names files := h5 d (List.mem_cons_self d rest)
    obtain ⟨i1, i2, i3⟩ :=
      hv d st P h1 (h2 d (List.mem_cons_self d rest)) h3 h4 hd
    have hsub : st.1 ⊆ (visit files fuel d st).1 :=
      fun y hy => visit_mono hd hy
    have h3' :
        unvisitedCount files (visit files fuel d st).1 + 1 ≤ fuel := by
      have := @unvisitedCount_mono files st.1 (visit files fuel d st).1 hsub
      omega
    have hrest : ∀ y ∈ rest, y ∈ names files :=
      fun y hy => h5 y (List.mem_cons_of_mem d hy)
    obtain ⟨j1, j2, j3⟩ := ih (visit files fuel d st) P i1
      (fun y hy => h2 y (List.mem_cons_of_mem d hy)) h3' i2 hrest
    refine ⟨j1, j2, ?_⟩
    intro x hx
    rcases List.mem_cons.1 hx with rfl | hx'
    · exact fold_mono hrest i3
    · exact j3 x hx'

lemma visit_rank {files : List MigrationFile} {rank : String → Nat}
    (hrank : ∀ p ∈ names files, ∀ c ∈ resolvedDepNames files p,
      rank c < rank p) :
    ∀ fuel : Nat, VisitRank files rank fuel := by
  intro fuel
  induction fuel with
  | zero =>
    intro n st P _ _ h3 _ _
    omega
  | succ fuel ih =>
    intro n st P h1 h2 h3 h4 h5
    by_cases hvis : n ∈ st.1
    · have : visit files (Nat.succ fuel) n st = st := by
        simp [visit, hvis]
      rw [this]
      exact ⟨h1, h4, hvis⟩
    · obtain ⟨fa, hfind⟩ := findByName_isSome_of_mem h5
      obtain ⟨hfa_mem, hfa_name⟩ := findByName_spec hfind
      set st1 : VisitSt := (n :: st.1, st.2) with hst1
      set st2 := (resolvedDepNames files n).foldl
        (fun s d => visit files fuel d s) st1 with hst2
      have hunfold : visit files (Nat.succ fuel) n st =
          (st2.1, st2.2 ++ [fa]) := by
        simp only [visit]
        rw [if_neg hvis, ← hst1, ← hst2, hfind]
      -- invariant for the inner fold, with `n` pushed onto the stack
      have h1' : ∀ x, x ∈ st1.1 ↔ x ∈ names st1.2 ∨ x ∈ n :: P := by
        intro x
        show x ∈ n :: st.1 ↔ x ∈ names st.2 ∨ x ∈ n :: P
        rw [List.mem_cons, h1 x, List.mem_cons]
        tauto
      have h2' : ∀ c ∈ resolvedDepNames files n, ∀ p ∈ n :: P,
          rank c < rank p := by
        intro c hc p hp
        have hcn : rank c < rank n := hrank n h5 c hc
        rcases List.mem_cons.1 hp with rfl | hp'
        · exact hcn
        · exact Nat.lt_trans hcn (h2 p hp')
      have h3' : unvisitedCount files st1.1 + 1 ≤ fuel := by
        have := @unvisitedCount_lt files st.1 n h5 hvis
        show unvisitedCount files (n :: st.1) + 1 ≤ fuel
        omega
      have hds : ∀ d ∈ resolvedDepNames files n, d ∈ names files :=
        fun d hd => resolvedDepNames_subset hd
      obtain ⟨j1, j2, j3⟩ := foldRank_of_visitRank ih
        (resolvedDepNames files n) st1 (n :: P) h1' h2' h3' h4 hds
      rw [hunfold]
      refine ⟨?_, ?_, ?_⟩
      · intro x
        show x ∈ st2.1 ↔ x ∈ names (st2.2 ++ [fa]) ∨ x ∈ P
        rw [j1 x, names_append]
        simp only [names, List.map_cons, List.map_nil, List.mem_append,
          List.mem_cons, List.mem_singleton, hfa_name]
        constructor
        · rintro (h | h)
          · exact Or.inl (Or.inl h)
          · rcases h with h | h
            · exact Or.inl (Or.inr (Or.inl h))
            · exact Or.inr h
        · rintro (h | h)
          · rcases h with h | h | h
            · exact Or.inl h
            · exact Or.inr (Or.inl h)
            · cases h
          · exact Or.inr (Or.inr h)
      · apply depClosed_append_singleton j2
        intro g hg
        rw [hfa_name] at hg
        have hgvis : g ∈ st2.1 := j3 g hg
        rcases (j1 g).1 hgvis with h | h
        · exact h
        · exfalso
          rcases List.mem_cons.1 h with hgn | hgp
          · rw [hgn] at hg
            exact Nat.lt_irrefl _ (hrank n h5 n hg)
          · have h1g : rank g < rank n := hrank n h5 g hg
            have h2g : rank n < rank g := h2 g hgp
            omega
      · show n ∈ st2.1
        exact fold_mono hds (List.mem_cons_self n st.1)

/-! ### Top-level structure of `topological_sort` -/

lemma topological_sort_eq_foldNames (files : List MigrationFile) :
    topological_sort files =
      ((names (sortedByName files)).foldl
        (fun st n =>
          visit (sortedByName files) ((sortedByName files).length + 1) n st)
        (([], []) : VisitSt)).2 := by
  unfold topological_sort names
  rw [List.foldl_map]

lemma sortedByName_perm (files : List MigrationFile) :
    (sortedByName files).Perm files :=
  List.perm_insertionSort fileLe files

lemma names_sorted_nodup {files : List MigrationFile}
    (h : (names files).Nodup) : (names (sortedByName files)).Nodup := by
  have : (names (sortedByName files)).Perm (names files) :=
    (sortedByName_perm files).map _
  exact this.nodup_iff.2 h

/-- Summary of the main loop of `topological_sort`: the output is exactly
the appended files; its names are pairwise distinct; each output entry is
the `findByName` representative of its name; every filename of the input
occurs among the output names. -/
lemma topological_sort_main (files : List MigrationFile) :
    (names (topological_sort files)).Nodup ∧
    (∀ f ∈ topological_sort files,
      findByName (sortedByName files) f.name = some f) ∧
    (∀ n ∈ names (sortedByName files), n ∈ names (topological_sort files)) := by
  set sorted := sortedByName files with hsorted
  set fuel := sorted.length + 1 with hfuel
  have hds : ∀ d ∈ names sorted, d ∈ names sorted := fun d hd => hd
  obtain ⟨Δ, h1, h2, h3, h4, h5, h6⟩ :=
    foldFrame_of_visitFrame (visit_frame sorted fuel) (names sorted)
      (([], []) : VisitSt) hds
  have hΔ : topological_sort files = Δ := by
    rw [topological_sort_eq_foldNames, ← hsorted, ← hfuel, h1]
    rfl
  have hcomp : ∀ n ∈ names sorted,
      n ∈ ((names sorted).foldl (fun s x => visit sorted fuel x s)
        (([], []) : VisitSt)).1 := by
    apply fold_complete (names sorted) (([], []) : VisitSt) hds
    have := unvisitedCount_le sorted ((([], []) : VisitSt)).1
    omega
  refine ⟨?_, ?_, ?_⟩
  · rw [hΔ]; exact h3
  · intro f hf
    rw [hΔ] at hf
    exact h5 f hf
  · intro n hn
    have := hcomp n hn
    rcases (h2 n).1 this with h | h
    · cases h
    · rw [hΔ]; exact h

/-- Every file of a duplicate-free input occurs exactly once in the output:
`topological_sort` permutes its input.  (Cycles in the inferred dependency
relation are irrelevant: no acyclicity is assumed.) -/
lemma topological_sort_perm {files : List MigrationFile}
    (hnd : (names files).Nodup) : (topological_sort files).Perm files := by
  obtain ⟨h3, h5, hcomp⟩ := topological_sort_main files
  have hnds : (names (sortedByName files)).Nodup := names_sorted_nodup hnd
  have hout_sub : ∀ f ∈ topological_sort files, f ∈ sortedByName files :=
    fun f hf => (findByName_spec (h5 f hf)).1
  have hin_sub : ∀ f ∈ sortedByName files, f ∈ topological_sort files := by
    intro f hf
    have hn : f.name ∈ names (topological_sort files) :=
      hcomp f.name (List.mem_map.2 ⟨f, hf, rfl⟩)
    rcases List.mem_map.1 hn with ⟨o, ho, hon⟩
    have : findByName (sortedByName files) o.name = some o := h5 o ho
    rw [hon] at this
    rw [findByName_of_nodup hnds hf] at this
    cases this
    exact ho
  have hnodup_out : (topological_sort files).Nodup := by
    have : (topological_sort files).Nodup ↔ True := by
      constructor
      · intro _; trivial
      · intro _
        exact (List.Nodup.of_map _ h3)
    exact this.2 trivial
  have hnodup_in : (sortedByName files).Nodup := List.Nodup.of_map _ hnds
  have hperm : (topological_sort files).Perm (sortedByName files) :=
    (List.perm_ext_iff_of_nodup hnodup_out hnodup_in).2
      (fun f => ⟨hout_sub f, hin_sub f⟩)
  exact hperm.trans (sortedByName_perm files)

/-- If every file's content yields no references at all, each dependency
list is empty. -/
lemma resolvedDepNames_nil_of_no_refs {files : List MigrationFile}
    (h : ∀ f ∈ files, get_table_references f.content = []) (n : String) :
    resolvedDepNames files n = [] := by
  unfold resolvedDepNames depsOf
  cases hfind : files.find? (fun f => f.name = n) with
  | none => rfl
  | some g =>
    have hred : (match some g with
        | some f => get_table_references f.content
        | none => ([] : List String)) = get_table_references g.content := rfl
    rw [hred, h g (List.mem_of_find?_eq_some hfind)]
    rfl

lemma fold_nodeps {files : List MigrationFile} {fuel : Nat} :
    ∀ (fs : List MigrationFile) (st : VisitSt),
      (∀ f ∈ fs, findByName files f.name = some f) →
      (∀ f ∈ fs, resolvedDepNames files f.name = []) →
      (∀ f ∈ fs, f.name ∉ st.1) →
      (names fs).Nodup →
      ((names fs).foldl
        (fun s n => visit files (Nat.succ fuel) n s) st).2 = st.2 ++ fs := by
  intro fs
  induction fs with
  | nil => intro st _ _ _ _; simp [names]
  | cons f fs' ih =>
    intro st hfind hdeps hfresh hnd
    have hf_find := hfind f (List.mem_cons_self f fs')
    have hf_deps := hdeps f (List.mem_cons_self f fs')
    have hf_fresh := hfresh f (List.mem_cons_self f fs')
    have hvisit : visit files (Nat.succ fuel) f.name st =
        (f.name :: st.1, st.2 ++ [f]) := by
      simp only [visit]
      rw [if_neg hf_fresh, hf_deps]
      simp only [List.foldl_nil]
      rw [hf_find]
    have hstep : (names (f :: fs')).foldl
        (fun s n => visit files (Nat.succ fuel) n s) st =
        (names fs').foldl (fun s n => visit files (Nat.succ fuel) n s)
          (f.name :: st.1, st.2 ++ [f]) := by
      show (f.name :: names fs').foldl _ st = _
      rw [List.foldl_cons, hvisit]
    rw [hstep]
    have hnd' : (names fs').Nodup := (List.nodup_cons.1 (by exact hnd)).2
    have hfresh' : ∀ g ∈ fs', g.name ∉ (f.name :: st.1, st.2 ++ [f]).1 := by
      intro g hg
      show g.name ∉ f.name :: st.1
      intro hc
      rcases List.mem_cons.1 hc with hc' | hc'
      · have : f.name ∈ names fs' := hc' ▸ List.mem_map.2 ⟨g, hg, rfl⟩
        exact (List.nodup_cons.1 (by exact hnd)).1 this
      · exact hfresh g (List.mem_cons_of_mem f hg) hc'
    rw [ih (f.name :: st.1, st.2 ++ [f])
      (fun g hg => hfind g (List.mem_cons_of_mem f hg))
      (fun g hg => hdeps g (List.mem_cons_of_mem f hg)) hfresh' hnd']
    simp

/-! ### Position lemmas for the computed order -/

lemma posOf_middle {p : String} {l1 l2 : List String} (hp : p ∉ l1) :
    posOf p (l1 ++ p :: l2) = l1.length := by
  rw [posOf_append_of_not_mem _ hp]
  simp [posOf]

lemma depClosed_posOf {files out : List MigrationFile}
    (hclosed : depClosed files out) (hnd : (names out).Nodup)
    {p c : String} (hp : p ∈ names out)
    (hc : c ∈ resolvedDepNames files p) :
    posOf c (names out) < posOf p (names out) := by
  rcases List.mem_map.1 hp with ⟨fp, hfp, hfp_name⟩
  obtain ⟨l1, l2, rfl⟩ := List.append_of_mem hfp
  have hnames : names (l1 ++ fp :: l2) = names l1 ++ p :: names l2 := by
    simp [names, hfp_name]
  have hp_notin : p ∉ names l1 ∧ p ∉ names l2 := by
    rw [hnames] at hnd
    have := List.nodup_middle.1 hnd
    have hnm := (List.nodup_cons.1 this).1
    rw [List.mem_append] at hnm
    exact ⟨fun hc' => hnm (Or.inl hc'), fun hc' => hnm (Or.inr hc')⟩
  have hc_in : c ∈ names l1 := by
    have := hclosed l1 fp l2 rfl c (by rw [hfp_name]; exact hc)
    exact this
  rw [hnames, posOf_middle hp_notin.1, posOf_append_of_mem _ hc_in]
  exact posOf_lt_length hc_in

/-- Instantiation of the rank machinery at the top level: a rank function
decreasing along resolvable dependencies makes the output
dependency-closed. -/
lemma topological_sort_depClosed {files : List MigrationFile}
    {rank : String → Nat}
    (hrank : ∀ p ∈ names (sortedByName files),
      ∀ c ∈ resolvedDepNames (sortedByName files) p, rank c < rank p) :
    depClosed (sortedByName files) (topological_sort files) := by
  set sorted := sortedByName files with hsorted
  set fuel := sorted.length + 1 with hfuel
  have h1 : ∀ x, x ∈ (([], []) : VisitSt).1 ↔
      x ∈ names (([], []) : VisitSt).2 ∨ x ∈ ([] : List String) := by
    intro x; simp [names]
  have h4 : depClosed sorted (([], []) : VisitSt).2 := by
    intro l1 f l2 heq
    exact absurd heq (by simp)
  have h3 : unvisitedCount sorted (([], []) : VisitSt).1 + 1 ≤ fuel := by
    have := unvisitedCount_le sorted ((([], []) : VisitSt)).1
    omega
  obtain ⟨_, hclosed, _⟩ := foldRank_of_visitRank (visit_rank hrank fuel)
    (names sorted) (([], []) : VisitSt) ([] : List String) h1
    (fun d _ p hp => absurd hp (List.not_mem_nil p)) h3 h4
    (fun d hd => hd)
  rw [topological_sort_eq_foldNames, ← hsorted, ← hfuel]
  exact hclosed

/-- Files with no resolvable dependency that are not themselves resolved
dependencies of any file are appended exactly at their own turn of the main
loop, so they retain their relative lexicographic order. -/
lemma topological_sort_nodep_order {files : List MigrationFile}
    (hnd : (names files).Nodup) {f g : MigrationFile}
    (hf : f ∈ files) (hg : g ∈ files)
    (hfd : resolvedDepNames (sortedByName files) f.name = [])
    (hfnod : ∀ p ∈ names (sortedByName files),
      f.name ∉ resolvedDepNames (sortedByName files) p)
    (hgnod : ∀ p ∈ names (sortedByName files),
      g.name ∉ resolvedDepNames (sortedByName files) p)
    (hlt : pyStrLt f.name.toList g.name.toList = true) :
    posOf f.name (names (topological_sort files)) <
      posOf g.name (names (topological_sort files)) := by
  classical
  set sorted := sortedByName files with hsorted
  set fuel := sorted.length + 1 with hfuelDef
  have hnds : (names sorted).Nodup := names_sorted_nodup hnd
  have hf_s : f ∈ sorted := ((sortedByName_perm files).mem_iff).2 hf
  have hg_s : g ∈ sorted := ((sortedByName_perm files).mem_iff).2 hg
  have hfg_name : f.name ≠ g.name := by
    intro hc
    rw [hc] at hlt
    rw [pyStrLt_irrefl] at hlt
    exact Bool.noConfusion hlt
  -- sortedness: in the sorted list `f` cannot come after `g`
  haveI : IsTotal MigrationFile fileLe := ⟨fileLe_total⟩
  haveI : IsTrans MigrationFile fileLe := ⟨fun a b c => fileLe_trans a b c⟩
  have hpair : (sorted).Pairwise fileLe := List.sorted_insertionSort fileLe files
  obtain ⟨A, B, hsplit⟩ := List.append_of_mem hf_s
  have hg_in_B : g ∈ B := by
    have hgAB : g ∈ A ++ f :: B := hsplit ▸ hg_s
    rcases List.mem_append.1 hgAB with hgA | hgB
    · exfalso
      have hp : List.Pairwise fileLe (A ++ f :: B) := hsplit ▸ hpair
      have hrel : fileLe g f :=
        (List.pairwise_append.1 hp).2.2 g hgA f (List.mem_cons_self f B)
      unfold fileLe at hrel
      rw [hlt] at hrel
      exact Bool.noConfusion hrel
    · rcases List.mem_cons.1 hgB with hc | hgB'
      · exact absurd (hc ▸ rfl) hfg_name
      · exact hgB'
  -- the names of the sorted list split accordingly
  have hnames_split : names sorted = names A ++ f.name :: names B := by
    rw [hsplit]; simp [names]
  have hnd_split : (names A ++ f.name :: names B).Nodup := by
    rw [← hnames_split]; exact hnds
  have hf_notin_AB : f.name ∉ names A ++ names B :=
    (List.nodup_cons.1 (List.nodup_middle.1 hnd_split)).1
  have hf_notin_A : f.name ∉ names A := fun hc =>
    hf_notin_AB (List.mem_append.2 (Or.inl hc))
  have hg_name_B : g.name ∈ names B := List.mem_map.2 ⟨g, hg_in_B, rfl⟩
  have hg_notin_A : g.name ∉ names A := by
    intro hc
    have hdisj := (List.nodup_append.1 hnd_split).2.2
    exact hdisj hc (List.mem_cons_of_mem _ hg_name_B)
  -- process the main loop up to (but excluding) f's turn
  have hA_sub : ∀ d ∈ names A, d ∈ names sorted := by
    intro d hd
    rw [hnames_split]
    exact List.mem_append.2 (Or.inl hd)
  have hB_sub : ∀ d ∈ names B, d ∈ names sorted := by
    intro d hd
    rw [hnames_split]
    exact List.mem_append.2 (Or.inr (List.mem_cons_of_mem _ hd))
  obtain ⟨ΔA, a1, a2, a3, a4, a5, a6⟩ :=
    foldFrame_of_visitFrame (visit_frame sorted fuel) (names A)
      (([], []) : VisitSt) hA_sub
  set stA := (names A).foldl (fun s d => visit sorted fuel d s)
    (([], []) : VisitSt) with hstA
  have hf_notin_ΔA : f.name ∉ names ΔA := by
    intro hc
    rcases List.mem_map.1 hc with ⟨x, hx, hxn⟩
    rcases a6 x hx with h | ⟨p, hp, hdep⟩
    · exact hf_notin_A (hxn ▸ h)
    · exact hfnod p hp (hxn ▸ hdep)
  have hg_notin_ΔA : g.name ∉ names ΔA := by
    intro hc
    rcases List.mem_map.1 hc with ⟨x, hx, hxn⟩
    rcases a6 x hx with h | ⟨p, hp, hdep⟩
    · exact hg_notin_A (hxn ▸ h)
    · exact hgnod p hp (hxn ▸ hdep)
  have hf_notin_stA : f.name ∉ stA.1 := by
    intro hc
    rcases (a2 f.name).1 hc with h | h
    · cases h
    · exact hf_notin_ΔA h
  have hg_notin_stA : g.name ∉ stA.1 := by
    intro hc
    rcases (a2 g.name).1 hc with h | h
    · cases h
    · exact hg_notin_ΔA h
  -- f's own turn appends exactly f
  have hfuel_succ : fuel = Nat.succ sorted.length := rfl
  have hvisit : visit sorted fuel f.name stA = (f.name :: stA.1, stA.2 ++ [f]) := by
    rw [hfuel_succ]
    simp only [visit]
    rw [if_neg hf_notin_stA, hfd]
    simp only [List.foldl_nil]
    rw [findByName_of_nodup hnds hf_s]
  set stB : VisitSt := (f.name :: stA.1, stA.2 ++ [f]) with hstB
  -- process the rest of the main loop
  obtain ⟨ΔC, c1, c2, c3, c4, c5, c6⟩ :=
    foldFrame_of_visitFrame (visit_frame sorted fuel) (names B) stB hB_sub
  have hg_in_ΔC : g.name ∈ names ΔC := by
    have hgvis : g.name ∈
        ((names B).foldl (fun s d => visit sorted fuel d s) stB).1 := by
      apply fold_complete (names B) stB hB_sub _ g.name hg_name_B
      have := unvisitedCount_le sorted stB.1
      omega
    rcases (c2 g.name).1 hgvis with h | h
    · exfalso
      rcases List.mem_cons.1 h with h' | h'
      · exact hfg_name h'.symm
      · exact hg_notin_stA h'
    · exact h
  -- assemble the final output
  have hout : topological_sort files =
      ((names B).foldl (fun s d => visit sorted fuel d s) stB).2 := by
    rw [topological_sort_eq_foldNames, ← hsorted, ← hfuelDef, hnames_split,
      List.foldl_append, List.foldl_cons, ← hstA, hvisit]
  have hout2 : topological_sort files = (ΔA ++ [f]) ++ ΔC := by
    rw [hout, c1]
    show (stA.2 ++ [f]) ++ ΔC = (ΔA ++ [f]) ++ ΔC
    rw [a1]
    simp
  have hnames_out : names (topological_sort files) =
      names ΔA ++ f.name :: names ΔC := by
    rw [hout2]
    simp [names]
  rw [hnames_out]
  have hposf : posOf f.name (names ΔA ++ f.name :: names ΔC) =
      (names ΔA).length := posOf_middle hf_notin_ΔA
  have hposg : posOf g.name (names ΔA ++ f.name :: names ΔC) =
      (names ΔA).length + (posOf g.name (names ΔC) + 1) := by
    rw [posOf_append_of_not_mem _ hg_notin_ΔA]
    have : posOf g.name (f.name :: names ΔC) =
        posOf g.name (names ΔC) + 1 := by
      simp [posOf, hfg_name]
    rw [this]
  rw [hposf, hposg]
  omega

/-! ### Database-layer lemmas -/

lemma execSql_history (env : DbEnv) (st : DbState) (s : String) :
    (execSql env st s).1.history =
      st.history ++ [DbOp.exec s (env st.history (DbReq.sql s))] := rfl

lemma execSql_isolation (env : DbEnv) (st : DbState) (s : String) :
    (execSql env st s).1.isolation = st.isolation := rfl

lemma runAutocommitStmts_success (env : DbEnv)
    (hsucc : ∀ h r, env h r = true) :
    ∀ (stmts : List String) (st : DbState),
      runAutocommitStmts env st stmts =
        ({ st with history := st.history ++
            stmts.map (fun s => DbOp.exec s true) }, true) := by
  intro stmts
  induction stmts with
  | nil => intro st; simp [runAutocommitStmts]
  | cons s rest ih =>
    intro st
    simp only [runAutocommitStmts, execSql, hsucc, if_true]
    rw [ih]
    simp

lemma runAutocommitStmts_frame (env : DbEnv) :
    ∀ (stmts : List String) (st : DbState), ∃ ops : List DbOp,
      (runAutocommitStmts env st stmts).1.history = st.history ++ ops ∧
      (runAutocommitStmts env st stmts).1.isolation = st.isolation ∧
      ∀ op ∈ ops, ∃ s b, op = DbOp.exec s b ∧ s ∈ stmts := by
  intro stmts
  induction stmts with
  | nil =>
    intro st
    exact ⟨[], by simp [runAutocommitStmts], rfl,
      fun op hop => absurd hop (List.not_mem_nil op)⟩
  | cons s rest ih =>
    intro st
    by_cases hok : env st.history (DbReq.sql s) = true
    · obtain ⟨ops, h1, h2, h3⟩ := ih (execSql env st s).1
      refine ⟨DbOp.exec s true :: ops, ?_, ?_, ?_⟩
      · simp only [runAutocommitStmts, execSql, hok, if_true] at h1 ⊢
        rw [h1]
        simp [execSql, hok]
      · simp only [runAutocommitStmts, execSql, hok, if_true] at h2 ⊢
        rw [h2]
      · intro op hop
        rcases List.mem_cons.1 hop with rfl | hop'
        · exact ⟨s, true, rfl, List.mem_cons_self s rest⟩
        · obtain ⟨s', b', hs', hmem⟩ := h3 op hop'
          exact ⟨s', b', hs', List.mem_cons_of_mem s hmem⟩
    · have hok' : env st.history (DbReq.sql s) = false := by
        cases h : env st.history (DbReq.sql s)
        · rfl
        · exact absurd h hok
      refine ⟨[DbOp.exec s false], ?_, ?_, ?_⟩
      · simp [runAutocommitStmts, execSql, hok']
      · simp [runAutocommitStmts, execSql, hok']
      · intro op hop
        rcases List.mem_singleton.1 hop with rfl
        exact ⟨s, false, rfl, List.mem_cons_self s rest⟩

/-- `apply_migration` always restores the isolation level it found. -/
lemma apply_migration_isolation (env : DbEnv) (st : DbState)
    (f : MigrationFile) :
    (apply_migration env st f).1.isolation = st.isolation := by
  unfold apply_migration
  by_cases h1 : requires_autocommit f.content
  · simp [h1, setIso]
  · by_cases h2 : has_transaction_block f.content
    · simp [h1, h2, execSql]
    · simp only [h1, h2, Bool.false_eq_true, if_false]
      cases e1 : (execSql env st "BEGIN;").2 with
      | false => simp [execSql]
      | true =>
        cases e2 : (execSql env (execSql env st "BEGIN;").1 f.content).2 with
        | false => simp [e1, e2, execSql]
        | true => simp [e1, e2, execSql]

/-- On a fully successful run, `apply_migration` appends exactly the
success trace `applyOps` and reports success. -/
lemma apply_migration_success (env : DbEnv) (st : DbState)
    (f : MigrationFile) (hsucc : ∀ h r, env h r = true) :
    apply_migration env st f =
      ({ history := st.history ++ applyOps f st.isolation,
         isolation := st.isolation }, true) := by
  unfold apply_migration applyOps
  by_cases h1 : requires_autocommit f.content
  · simp only [h1, if_true]
    rw [runAutocommitStmts_success env hsucc]
    simp [setIso]
  · by_cases h2 : has_transaction_block f.content
    · simp [h1, h2, execSql, hsucc]
    · simp [h1, h2, execSql, hsucc]

/-- The history is only ever appended to by `apply_migration`, with
operations drawn from the runner's own statement vocabulary for `f`. -/
lemma apply_migration_frame (env : DbEnv) (st : DbState)
    (f : MigrationFile) : ∃ ops : List DbOp,
    (apply_migration env st f).1.history = st.history ++ ops ∧
    ∀ op ∈ ops,
      (∃ lvl, op = DbOp.setIsolation lvl) ∨
      (∃ s b, op = DbOp.exec s b ∧
        (s = "BEGIN;" ∨ s = "COMMIT;" ∨ s = f.content ∨
          s ∈ autocommitStatements f.content)) := by
  unfold apply_migration
  by_cases h1 : requires_autocommit f.content
  · simp only [h1, if_true]
    obtain ⟨ops, hh, hi, hops⟩ := runAutocommitStmts_frame env
      (autocommitStatements f.content) (setIso st 0)
    refine ⟨DbOp.setIsolation 0 :: ops ++ [DbOp.setIsolation st.isolation],
      ?_, ?_⟩
    · show (setIso (runAutocommitStmts env (setIso st 0)
        (autocommitStatements f.content)).1 st.isolation).history = _
      rw [show ∀ s lvl, (setIso s lvl).history = s.history ++
          [DbOp.setIsolation lvl] from fun s lvl => rfl]
      rw [hh]
      rw [show (setIso st 0).history = st.history ++ [DbOp.setIsolation 0]
        from rfl]
      simp
    · intro op hop
      rcases List.mem_cons.1 hop with rfl | hop'
      · exact Or.inl ⟨0, rfl⟩
      · rcases List.mem_append.1 hop' with hop'' | hop''
        · obtain ⟨s, b, rfl, hmem⟩ := hops op hop''
          exact Or.inr ⟨s, b, rfl, Or.inr (Or.inr (Or.inr hmem))⟩
        · rcases List.mem_singleton.1 hop'' with rfl
          exact Or.inl ⟨st.isolation, rfl⟩
  · by_cases h2 : has_transaction_block f.content
    · refine ⟨[DbOp.exec f.content (env st.history (DbReq.sql f.content))],
        ?_, ?_⟩
      · simp [h1, h2, execSql]
      · intro op hop
        rcases List.mem_singleton.1 hop with rfl
        exact Or.inr ⟨f.content, _, rfl, Or.inr (Or.inr (Or.inl rfl))⟩
    · simp only [h1, h2, Bool.false_eq_true, if_false]
      cases e1 : (execSql env st "BEGIN;").2 with
      | false =>
        refine ⟨[DbOp.exec "BEGIN;" (env st.history (DbReq.sql "BEGIN;"))],
          by simp [execSql], ?_⟩
        intro op hop
        rcases List.mem_singleton.1 hop with rfl
        exact Or.inr ⟨"BEGIN;", _, rfl, Or.inl rfl⟩
      | true =>
        cases e2 : (execSql env (execSql env st "BEGIN;").1 f.content).2 with
        | false =>
          refine ⟨[DbOp.exec "BEGIN;" (env st.history (DbReq.sql "BEGIN;")),
            DbOp.exec f.content
              (env (execSql env st "BEGIN;").1.history
                (DbReq.sql f.content))], ?_, ?_⟩
          · simp [e1, e2, execSql]
          · intro op hop
            rcases List.mem_cons.1 hop with rfl | hop'
            · exact Or.inr ⟨"BEGIN;", _, rfl, Or.inl rfl⟩
            rcases List.mem_singleton.1 hop' with rfl
            exact Or.inr ⟨f.content, _, rfl, Or.inr (Or.inr (Or.inl rfl))⟩
        | true =>
          refine ⟨[DbOp.exec "BEGIN;" (env st.history (DbReq.sql "BEGIN;")),
            DbOp.exec f.content
              (env (execSql env st "BEGIN;").1.history (DbReq.sql f.content)),
            DbOp.exec "COMMIT;"
              (env (execSql env (execSql env st "BEGIN;").1
                  f.content).1.history (DbReq.sql "COMMIT;"))], ?_, ?_⟩
          · simp [e1, e2, execSql]
          · intro op hop
            rcases List.mem_cons.1 hop with rfl | hop'
            · exact Or.inr ⟨"BEGIN;", _, rfl, Or.inl rfl⟩
            rcases List.mem_cons.1 hop' with rfl | hop''
            · exact Or.inr ⟨f.content, _, rfl, Or.inr (Or.inr (Or.inl rfl))⟩
            rcases List.mem_singleton.1 hop'' with rfl
            exact Or.inr ⟨"COMMIT;", _, rfl, Or.inr (Or.inl rfl)⟩

/-- Shape of an autocommit-mode application, for any environment: the
isolation level is switched to 0, some prefix of the statements is
executed, and the old isolation level is restored afterwards. -/
lemma apply_migration_autocommit_shape (env : DbEnv) (st : DbState)
    (f : MigrationFile) (hreq : requires_autocommit f.content = true) :
    ∃ mid : List DbOp,
      (apply_migration env st f).1.history =
        st.history ++ [DbOp.setIsolation 0] ++ mid ++
          [DbOp.setIsolation st.isolation] ∧
      (∀ op ∈ mid, ∃ s b, op = DbOp.exec s b ∧
        s ∈ autocommitStatements f.content) := by
  obtain ⟨ops, hh, hi, hops⟩ := runAutocommitStmts_frame env
    (autocommitStatements f.content) (setIso st 0)
  refine ⟨ops, ?_, hops⟩
  unfold apply_migration
  rw [if_pos hreq]
  show (setIso (runAutocommitStmts env (setIso st 0)
    (autocommitStatements f.content)).1 st.isolation).history = _
  rw [show ∀ s lvl, (setIso s lvl).history = s.history ++
      [DbOp.setIsolation lvl] from fun s lvl => rfl]
  rw [hh]
  rw [show (setIso st 0).history = st.history ++ [DbOp.setIsolation 0]
    from rfl]

/-- On success, `record_migration` appends exactly its begin/insert/commit
transaction and reports success. -/
lemma record_migration_success (env : DbEnv) (st : DbState) (fn : String)
    (hsucc : ∀ h r, env h r = true) :
    record_migration env st fn =
      ({ history := st.history ++
          [DbOp.exec "BEGIN;" true, DbOp.insertTracking fn true,
           DbOp.exec "COMMIT;" true],
         isolation := st.isolation }, true) := by
  simp [record_migration, execSql, execInsert, hsucc]

/-- `record_migration` only appends; its operations are its BEGIN/COMMIT
and a single tracking insert for `fn`. -/
lemma record_migration_frame (env : DbEnv) (st : DbState) (fn : String) :
    ∃ ops : List DbOp,
      (record_migration env st fn).1.history = st.history ++ ops ∧
      (record_migration env st fn).1.isolation = st.isolation ∧
      (∀ op ∈ ops, (∃ s b, op = DbOp.exec s b ∧
        (s = "BEGIN;" ∨ s = "COMMIT;")) ∨
        (∃ b, op = DbOp.insertTracking fn b)) ∧
      (ops.filter (fun op => isTrackingInsertFor fn op)).length ≤ 1 ∧
      (∀ x, x ≠ fn → ops.filter (fun op => isTrackingInsertFor x op) = []) := by
  unfold record_migration
  cases e1 : env st.history (DbReq.sql "BEGIN;") with
  | false =>
    refine ⟨[DbOp.exec "BEGIN;" false], ?_, ?_, ?_, ?_, ?_⟩
    · simp [execSql, e1]
    · simp [execSql, e1]
    · intro op hop
      rcases List.mem_singleton.1 hop with rfl
      exact Or.inl ⟨"BEGIN;", _, rfl, Or.inl rfl⟩
    · simp [isTrackingInsertFor]
    · intro x _
      simp [isTrackingInsertFor]
  | true =>
    cases e2 : env (st.history ++ [DbOp.exec "BEGIN;" true])
        (DbReq.insert fn) with
    | false =>
      refine ⟨[DbOp.exec "BEGIN;" true, DbOp.insertTracking fn false],
        ?_, ?_, ?_, ?_, ?_⟩
      · simp [execSql, execInsert, e1, e2]
      · simp [execSql, execInsert, e1, e2]
      · intro op hop
        rcases List.mem_cons.1 hop with rfl | hop'
        · exact Or.inl ⟨"BEGIN;", _, rfl, Or.inl rfl⟩
        rcases List.mem_singleton.1 hop' with rfl
        exact Or.inr ⟨_, rfl⟩
      · simp [isTrackingInsertFor]
      · intro x hx
        simp [isTrackingInsertFor]
        intro hc
        exact absurd hc.symm hx
    | true =>
      refine ⟨[DbOp.exec "BEGIN;" true, DbOp.insertTracking fn true,
        DbOp.exec "COMMIT;"
          (env (st.history ++ [DbOp.exec "BEGIN;" true,
            DbOp.insertTracking fn true]) (DbReq.sql "COMMIT;"))],
        ?_, ?_, ?_, ?_, ?_⟩
      · simp [execSql, execInsert, e1, e2]
      · simp [execSql, execInsert, e1, e2]
      · intro op hop
        rcases List.mem_cons.1 hop with rfl | hop'
        · exact Or.inl ⟨"BEGIN;", _, rfl, Or.inl rfl⟩
        rcases List.mem_cons.1 hop' with rfl | hop''
        · exact Or.inr ⟨_, rfl⟩
        rcases List.mem_singleton.1 hop'' with rfl
        exact Or.inl ⟨"COMMIT;", _, rfl, Or.inr rfl⟩
      · simp [isTrackingInsertFor]
      · intro x hx
        simp [isTrackingInsertFor]
        intro hc
        exact absurd hc.symm hx

/-! ### Lemmas about `process_migration_files` -/

lemma process_skip (env : DbEnv) (st : DbState) (f : MigrationFile)
    (rest : List MigrationFile) (ap : List String) (h : f.name ∈ ap) :
    process_migration_files env st (f :: rest) ap =
      process_migration_files env st rest ap := by
  simp [process_migration_files, h]

lemma process_fail_apply (env : DbEnv) (st : DbState) (f : MigrationFile)
    (rest : List MigrationFile) (ap : List String) (hskip : f.name ∉ ap)
    (hfail : (apply_migration env st f).2 = false) :
    process_migration_files env st (f :: rest) ap =
      ((execSql env (apply_migration env st f).1 "ROLLBACK;").1, some 1) := by
  simp [process_migration_files, hskip, hfail]

lemma process_fail_record (env : DbEnv) (st : DbState) (f : MigrationFile)
    (rest : List MigrationFile) (ap : List String) (hskip : f.name ∉ ap)
    (hok : (apply_migration env st f).2 = true)
    (hfail : (record_migration env (apply_migration env st f).1 f.name).2 =
      false) :
    process_migration_files env st (f :: rest) ap =
      ((execSql env
        (record_migration env (apply_migration env st f).1 f.name).1
        "ROLLBACK;").1, some 1) := by
  simp [process_migration_files, hskip, hok, hfail]

lemma process_step_ok (env : DbEnv) (st : DbState) (f : MigrationFile)
    (rest : List MigrationFile) (ap : List String) (hskip : f.name ∉ ap)
    (hok : (apply_migration env st f).2 = true)
    (hrec : (record_migration env (apply_migration env st f).1 f.name).2 =
      true) :
    process_migration_files env st (f :: rest) ap =
      process_migration_files env
        (record_migration env (apply_migration env st f).1 f.name).1 rest
        ap := by
  simp [process_migration_files, hskip, hok, hrec]

/-- Processing a fully successful prefix and then continuing equals
continuing from the state the prefix produced. -/
lemma process_continue (env : DbEnv) (ap : List String) :
    ∀ (pre : List MigrationFile) (st st1 : DbState),
      process_migration_files env st pre ap = (st1, none) →
      ∀ rest, process_migration_files env st (pre ++ rest) ap =
        process_migration_files env st1 rest ap := by
  intro pre
  induction pre with
  | nil =>
    intro st st1 h rest
    injection h with h1 _
    rw [← h1]
    rfl
  | cons f pre' ih =>
    intro st st1 h rest
    by_cases hskip : f.name ∈ ap
    · rw [process_skip env st f pre' ap hskip] at h
      show process_migration_files env st (f :: (pre' ++ rest)) ap = _
      rw [process_skip env st f (pre' ++ rest) ap hskip]
      exact ih st st1 h rest
    · cases ha : (apply_migration env st f).2 with
      | false =>
        rw [process_fail_apply env st f pre' ap hskip ha] at h
        cases h
      | true =>
        cases hr : (record_migration env (apply_migration env st f).1
            f.name).2 with
        | false =>
          rw [process_fail_record env st f pre' ap hskip ha hr] at h
          cases h
        | true =>
          rw [process_step_ok env st f pre' ap hskip ha hr] at h
          show process_migration_files env st (f :: (pre' ++ rest)) ap = _
          rw [process_step_ok env st f (pre' ++ rest) ap hskip ha hr]
          exact ih _ st1 h rest

/-- On a fully successful run, the trace decomposes exactly into the
per-file operation blocks, in file order, and the run completes normally. -/
lemma process_success (env : DbEnv) (hsucc : ∀ h r, env h r = true)
    (ap : List String) :
    ∀ (files : List MigrationFile) (st : DbState),
      process_migration_files env st files ap =
        ({ history := st.history ++
            (files.map (perFileOps ap st.isolation)).flatten,
           isolation := st.isolation }, none) := by
  intro files
  induction files with
  | nil => intro st; simp [process_migration_files]
  | cons f rest ih =>
    intro st
    by_cases hskip : f.name ∈ ap
    · rw [process_skip env st f rest ap hskip, ih st]
      simp [perFileOps, hskip]
    · have happly := apply_migration_success env st f hsucc
      have hrec := record_migration_success env
        (apply_migration env st f).1 f.name hsucc
      rw [process_step_ok env st f rest ap hskip
        (by rw [happly]) (by rw [hrec])]
      rw [hrec, happly]
      rw [ih]
      simp [perFileOps, hskip, List.append_assoc]

/-! ### Tracking-insert bookkeeping -/

lemma execSql_filter (env : DbEnv) (st : DbState) (s : String) (fn : String) :
    (execSql env st s).1.history.filter (fun op => isTrackingInsertFor fn op) =
      st.history.filter (fun op => isTrackingInsertFor fn op) := by
  simp [execSql, List.filter_append, isTrackingInsertFor]

lemma apply_migration_filter (env : DbEnv) (st : DbState)
    (f : MigrationFile) (fn : String) :
    (apply_migration env st f).1.history.filter
        (fun op => isTrackingInsertFor fn op) =
      st.history.filter (fun op => isTrackingInsertFor fn op) := by
  obtain ⟨ops, hh, hops⟩ := apply_migration_frame env st f
  rw [hh, List.filter_append]
  have : ops.filter (fun op => isTrackingInsertFor fn op) = [] := by
    rw [List.filter_eq_nil_iff]
    intro op hop
    rcases hops op hop with ⟨lvl, rfl⟩ | ⟨s, b, rfl, _⟩ <;>
      simp [isTrackingInsertFor]
  rw [this, List.append_nil]

lemma record_migration_filter_ne (env : DbEnv) (st : DbState)
    (nm : String) (fn : String) (h : fn ≠ nm) :
    (record_migration env st nm).1.history.filter
        (fun op => isTrackingInsertFor fn op) =
      st.history.filter (fun op => isTrackingInsertFor fn op) := by
  obtain ⟨ops, hh, _, _, _, hne⟩ := record_migration_frame env st nm
  rw [hh, List.filter_append, hne fn h, List.append_nil]

lemma record_migration_filter_le (env : DbEnv) (st : DbState)
    (nm : String) (fn : String) :
    ((record_migration env st nm).1.history.filter
        (fun op => isTrackingInsertFor fn op)).length ≤
      (st.history.filter (fun op => isTrackingInsertFor fn op)).length +
        (if fn = nm then 1 else 0) := by
  obtain ⟨ops, hh, _, _, hle, hne⟩ := record_migration_frame env st nm
  rw [hh, List.filter_append, List.length_append]
  by_cases hfn : fn = nm
  · rw [if_pos hfn]
    subst hfn
    omega
  · rw [if_neg hfn, hne fn hfn]
    simp

/-- If a filename is in the applied set, no run ever adds a tracking
insert for it: the filtered history is untouched. -/
lemma process_filter_applied (env : DbEnv) (ap : List String) :
    ∀ (files : List MigrationFile) (st : DbState) (fn : String), fn ∈ ap →
      (process_migration_files env st files ap).1.history.filter
          (fun op => isTrackingInsertFor fn op) =
        st.history.filter (fun op => isTrackingInsertFor fn op) := by
  intro files
  induction files with
  | nil => intro st fn _; rfl
  | cons f rest ih =>
    intro st fn hfn
    by_cases hskip : f.name ∈ ap
    · rw [process_skip env st f rest ap hskip]
      exact ih st fn hfn
    · have hne : fn ≠ f.name := fun hc => hskip (hc ▸ hfn)
      cases ha : (apply_migration env st f).2 with
      | false =>
        rw [process_fail_apply env st f rest ap hskip ha]
        rw [execSql_filter, apply_migration_filter]
      | true =>
        cases hr : (record_migration env (apply_migration env st f).1
            f.name).2 with
        | false =>
          rw [process_fail_record env st f rest ap hskip ha hr]
          rw [execSql_filter, record_migration_filter_ne env _ _ _ hne,
            apply_migration_filter]
        | true =>
          rw [process_step_ok env st f rest ap hskip ha hr]
          rw [ih _ fn hfn, record_migration_filter_ne env _ _ _ hne,
            apply_migration_filter]

/-- With pairwise-distinct filenames, at most one tracking insert per
filename is ever added to the history. -/
lemma process_insert_count (env : DbEnv) (ap : List String) :
    ∀ (files : List MigrationFile) (st : DbState) (fn : String),
      (names files).Nodup →
      ((process_migration_files env st files ap).1.history.filter
          (fun op => isTrackingInsertFor fn op)).length ≤
        (st.history.filter (fun op => isTrackingInsertFor fn op)).length +
          (if fn ∈ names files then 1 else 0) := by
  intro files
  induction files with
  | nil =>
    intro st fn _
    simp [process_migration_files]
  | cons f rest ih =>
    intro st fn hnd
    have hmono : (if fn ∈ names rest then 1 else 0) ≤
        (if fn ∈ names (f :: rest) then 1 else 0) := by
      by_cases h1 : fn ∈ names rest
      · have h2 : fn ∈ names (f :: rest) := by
          simp only [names, List.map_cons, List.mem_cons]
          exact Or.inr h1
        rw [if_pos h1, if_pos h2]
      · rw [if_neg h1]
        omega
    by_cases hskip : f.name ∈ ap
    · rw [process_skip env st f rest ap hskip]
      have := ih st fn (List.nodup_cons.1 (by simpa [names] using hnd)).2
      omega
    · cases ha : (apply_migration env st f).2 with
      | false =>
        rw [process_fail_apply env st f rest ap hskip ha]
        rw [execSql_filter, apply_migration_filter]
        omega
      | true =>
        have happ := congrArg List.length (apply_migration_filter env st f fn)
        have hrec := record_migration_filter_le env
          (apply_migration env st f).1 f.name fn
        have hcase : (if fn = f.name then 1 else 0) ≤
            (if fn ∈ names (f :: rest) then 1 else 0) := by
          by_cases h1 : fn = f.name
          · have h2 : fn ∈ names (f :: rest) := by
              simp only [names, List.map_cons, List.mem_cons]
              exact Or.inl h1
            rw [if_pos h1, if_pos h2]
          · rw [if_neg h1]
            omega
        cases hr : (record_migration env (apply_migration env st f).1
            f.name).2 with
        | false =>
          rw [process_fail_record env st f rest ap hskip ha hr]
          rw [execSql_filter]
          omega
        | true =>
          rw [process_step_ok env st f rest ap hskip ha hr]
          have hnd' : (names rest).Nodup :=
            (List.nodup_cons.1 (by simpa [names] using hnd)).2
          have hih := ih (record_migration env
            (apply_migration env st f).1 f.name).1 fn hnd'
          by_cases h1 : fn = f.name
          · have hnotin : fn ∉ names rest := by
              rw [h1]
              exact (List.nodup_cons.1 (by simpa [names] using hnd)).1
            rw [if_neg hnotin] at hih
            have h2 : fn ∈ names (f :: rest) := by
              simp only [names, List.map_cons, List.mem_cons]
              exact Or.inl h1
            rw [if_pos h2]
            rw [if_pos h1] at hrec
            omega
          · rw [if_neg h1] at hrec
            omega

/-! ### The operations a run may issue -/

lemma allowedStmt_mono {files files' : List MigrationFile}
    (hsub : ∀ f ∈ files, f ∈ files') {s : String}
    (h : allowedStmt files s) : allowedStmt files' s := by
  rcases h with h | h | h | ⟨f, hf, hfs⟩
  · exact Or.inl h
  · exact Or.inr (Or.inl h)
  · exact Or.inr (Or.inr (Or.inl h))
  · exact Or.inr (Or.inr (Or.inr ⟨f, hsub f hf, hfs⟩))

/-- Every operation a run appends is a set-isolation, a tracking insert
for a not-yet-applied file of the list, or an execution of one of the
runner's own statements for some file of the list. -/
lemma process_ops_allowed (env : DbEnv) (ap : List String) :
    ∀ (files : List MigrationFile) (st : DbState), ∃ Δ : List DbOp,
      (process_migration_files env st files ap).1.history =
        st.history ++ Δ ∧
      ∀ op ∈ Δ,
        (∃ lvl, op = DbOp.setIsolation lvl) ∨
        (∃ fn b, op = DbOp.insertTracking fn b ∧ fn ∈ names files ∧
          fn ∉ ap) ∨
        (∃ s b, op = DbOp.exec s b ∧ allowedStmt files s) := by
  intro files
  induction files with
  | nil =>
    intro st
    exact ⟨[], by simp [process_migration_files],
      fun op hop => absurd hop (List.not_mem_nil op)⟩
  | cons f rest ih =>
    intro st
    have hsub : ∀ g ∈ rest, g ∈ f :: rest :=
      fun g hg => List.mem_cons_of_mem f hg
    have hweaken : ∀ (Δ : List DbOp),
        (∀ op ∈ Δ,
          (∃ lvl, op = DbOp.setIsolation lvl) ∨
          (∃ fn b, op = DbOp.insertTracking fn b ∧ fn ∈ names rest ∧
            fn ∉ ap) ∨
          (∃ s b, op = DbOp.exec s b ∧ allowedStmt rest s)) →
        ∀ op ∈ Δ,
          (∃ lvl, op = DbOp.setIsolation lvl) ∨
          (∃ fn b, op = DbOp.insertTracking fn b ∧ fn ∈ names (f :: rest) ∧
            fn ∉ ap) ∨
          (∃ s b, op = DbOp.exec s b ∧ allowedStmt (f :: rest) s) := by
      intro Δ h op hop
      rcases h op hop with h' | ⟨fn, b, rfl, hfn, hnap⟩ | ⟨s, b, rfl, hs⟩
      · exact Or.inl h'
      · refine Or.inr (Or.inl ⟨fn, b, rfl, ?_, hnap⟩)
        simp only [names, List.map_cons, List.mem_cons]
        exact Or.inr (by simpa [names] using hfn)
      · exact Or.inr (Or.inr ⟨s, b, rfl, allowedStmt_mono hsub hs⟩)
    by_cases hskip : f.name ∈ ap
    · obtain ⟨Δ, h1, h2⟩ := ih st
      rw [process_skip env st f rest ap hskip]
      exact ⟨Δ, h1, hweaken Δ h2⟩
    · obtain ⟨opsA, hA, hAops⟩ := apply_migration_frame env st f
      have hAok : ∀ op ∈ opsA,
          (∃ lvl, op = DbOp.setIsolation lvl) ∨
          (∃ fn b, op = DbOp.insertTracking fn b ∧ fn ∈ names (f :: rest) ∧
            fn ∉ ap) ∨
          (∃ s b, op = DbOp.exec s b ∧ allowedStmt (f :: rest) s) := by
        intro op hop
        rcases hAops op hop with ⟨lvl, rfl⟩ | ⟨s, b, rfl, hs⟩
        · exact Or.inl ⟨lvl, rfl⟩
        · refine Or.inr (Or.inr ⟨s, b, rfl, ?_⟩)
          rcases hs with rfl | rfl | rfl | hs'
          · exact Or.inl rfl
          · exact Or.inr (Or.inl rfl)
          · exact Or.inr (Or.inr (Or.inr
              ⟨f, List.mem_cons_self f rest, Or.inl rfl⟩))
          · exact Or.inr (Or.inr (Or.inr
              ⟨f, List.mem_cons_self f rest, Or.inr hs'⟩))
      cases ha : (apply_migration env st f).2 with
      | false =>
        rw [process_fail_apply env st f rest ap hskip ha]
        refine ⟨opsA ++ [DbOp.exec "ROLLBACK;"
          (env (apply_migration env st f).1.history (DbReq.sql "ROLLBACK;"))],
          ?_, ?_⟩
        · rw [execSql_history, hA, List.append_assoc]
        · intro op hop
          rcases List.mem_append.1 hop with hop' | hop'
          · exact hAok op hop'
          · rcases List.mem_singleton.1 hop' with rfl
            exact Or.inr (Or.inr ⟨"ROLLBACK;", _, rfl,
              Or.inr (Or.inr (Or.inl rfl))⟩)
      | true =>
        obtain ⟨opsR, hR, _, hRops, _, _⟩ := record_migration_frame env
          (apply_migration env st f).1 f.name
        have hRok : ∀ op ∈ opsR,
            (∃ lvl, op = DbOp.setIsolation lvl) ∨
            (∃ fn b, op = DbOp.insertTracking fn b ∧
              fn ∈ names (f :: rest) ∧ fn ∉ ap) ∨
            (∃ s b, op = DbOp.exec s b ∧ allowedStmt (f :: rest) s) := by
          intro op hop
          rcases hRops op hop with ⟨s, b, rfl, hs⟩ | ⟨b, rfl⟩
          · refine Or.inr (Or.inr ⟨s, b, rfl, ?_⟩)
            rcases hs with rfl | rfl
            · exact Or.inl rfl
            · exact Or.inr (Or.inl rfl)
          · refine Or.inr (Or.inl ⟨f.name, b, rfl, ?_, hskip⟩)
            simp [names]
        cases hr : (record_migration env (apply_migration env st f).1
            f.name).2 with
        | false =>
          rw [process_fail_record env st f rest ap hskip ha hr]
          refine ⟨opsA ++ opsR ++ [DbOp.exec "ROLLBACK;"
            (env (record_migration env (apply_migration env st f).1
              f.name).1.history (DbReq.sql "ROLLBACK;"))], ?_, ?_⟩
          · rw [execSql_history, hR, hA]
            simp [List.append_assoc]
          · intro op hop
            rcases List.mem_append.1 hop with hop' | hop'
            · rcases List.mem_append.1 hop' with hop'' | hop''
              · exact hAok op hop''
              · exact hRok op hop''
            · rcases List.mem_singleton.1 hop' with rfl
              exact Or.inr (Or.inr ⟨"ROLLBACK;", _, rfl,
                Or.inr (Or.inr (Or.inl rfl))⟩)
        | true =>
          rw [process_step_ok env st f rest ap hskip ha hr]
          obtain ⟨Δ, h1, h2⟩ := ih (record_migration env
            (apply_migration env st f).1 f.name).1
          refine ⟨opsA ++ opsR ++ Δ, ?_, ?_⟩
          · rw [h1, hR, hA]
            simp [List.append_assoc]
          · intro op hop
            rcases List.mem_append.1 hop with hop' | hop'
            · rcases List.mem_append.1 hop' with hop'' | hop''
              · exact hAok op hop''
              · exact hRok op hop''
            · exact hweaken Δ h2 op hop'

/-! ### Lines are infixes of the split text -/

lemma pySplit_head_pre (sep : Char) :
    ∀ l : List Char, ∃ l0 ls, pySplit sep l = l0 :: ls ∧ l0 <+: l := by
  intro l
  induction l with
  | nil => exact ⟨[], [], rfl, List.nil_prefix⟩
  | cons c rest ih =>
    by_cases hc : c = sep
    · exact ⟨[], pySplit sep rest, by simp [pySplit, hc], List.nil_prefix⟩
    · obtain ⟨l0, ls, heq, hpre⟩ := ih
      refine ⟨c :: l0, ls, ?_, ?_⟩
      · simp [pySplit, hc, heq]
      · exact List.cons_prefix_cons.2 ⟨rfl, hpre⟩

lemma pySplit_infix_of_mem (sep : Char) :
    ∀ (l : List Char) (line : List Char),
      line ∈ pySplit sep l → line <:+: l := by
  intro l
  induction l with
  | nil =>
    intro line h
    have hl : line = [] := by simpa [pySplit] using h
    rw [hl]
  | cons c rest ih =>
    intro line h
    by_cases hc : c = sep
    · have h2 : line = [] ∨ line ∈ pySplit sep rest := by
        have he : pySplit sep (c :: rest) = [] :: pySplit sep rest := by
          simp [pySplit, hc]
        rw [he] at h
        exact List.mem_cons.1 h
      rcases h2 with rfl | h'
      · exact List.nil_infix
      · exact (ih line h').trans (List.infix_cons (List.infix_refl rest))
    · obtain ⟨l0, ls, heq, hpre⟩ := pySplit_head_pre sep rest
      have hsplit : pySplit sep (c :: rest) = (c :: l0) :: ls := by
        simp [pySplit, hc, heq]
      rw [hsplit] at h
      rcases List.mem_cons.1 h with rfl | h'
      · exact (List.cons_prefix_cons.2 ⟨rfl, hpre⟩).isInfix
      · have : line ∈ pySplit sep rest := by rw [heq]; exact List.mem_cons_of_mem _ h'
        exact (ih line this).trans (List.infix_cons (List.infix_refl rest))

/-- If the (case-sensitive) literal `REFERENCES` does not occur in the
content, no line contributes a reference. -/
lemma get_table_references_nil {content : String}
    (h : ¬ (refsLit <:+: content.toList)) :
    get_table_references content = [] := by
  unfold get_table_references
  have hlines : ∀ line ∈ pySplit '\n' content.toList,
      ¬ (refsLit <:+: line) := by
    intro line hline hc
    exact h (hc.trans (pySplit_infix_of_mem '\n' content.toList line hline))
  revert hlines
  generalize pySplit '\n' content.toList = lines
  induction lines with
  | nil => intro _; rfl
  | cons line rest ih =>
    intro hlines
    rw [List.foldl_cons, if_neg (hlines line (List.mem_cons_self line rest))]
    exact ih (fun l hl => hlines l (List.mem_cons_of_mem line hl))

/-! ### Claim theorems -/

/-- C1 (counterexample): the claim as stated is false.  On the input
`demoFiles`: `b.sql` and `c.sql` have no resolvable dependency and
`b.sql < c.sql` lexicographically, yet the computed order places `c.sql`
strictly before `b.sql` (it is pulled forward as a dependency of `a.sql`);
moreover `d.sql` is a resolved dependency of itself (its referenced table
`d` prefix-matches its own filename), and a file cannot appear strictly
before itself. -/
theorem topological_sort_order_claim_false :
    resolvedDepNames (sortedByName demoFiles) "b.sql" = [] ∧
    resolvedDepNames (sortedByName demoFiles) "c.sql" = [] ∧
    pyStrLt "b.sql".toList "c.sql".toList = true ∧
    posOf "c.sql" (names (topological_sort demoFiles)) <
      posOf "b.sql" (names (topological_sort demoFiles)) ∧
    "d.sql" ∈ resolvedDepNames (sortedByName demoFiles) "d.sql" ∧
    ¬ (posOf "d.sql" (names (topological_sort demoFiles)) <
        posOf "d.sql" (names (topological_sort demoFiles))) := by
  decide

/-- C1 (amended): (1) whenever the resolved dependency relation admits a
rank function that strictly decreases along dependencies (i.e. it is
acyclic), every dependency the prefix-match heuristic resolves appears
strictly before each of its dependents; (2) files with no resolvable
dependency **that are not themselves resolved dependencies of any file**
appear in the same relative lexicographic order as each other; (3) in
particular, for `b_table.sql` (no references) and `a_table.sql`
(containing `FOREIGN KEY REFERENCES b`), `b_table.sql` precedes
`a_table.sql`. -/
theorem topological_sort_dependency_order :
    (∀ (files : List MigrationFile) (rank : String → Nat),
      (∀ p ∈ names (sortedByName files),
        ∀ c ∈ resolvedDepNames (sortedByName files) p, rank c < rank p) →
      ∀ p ∈ names (sortedByName files),
        ∀ c ∈ resolvedDepNames (sortedByName files) p,
          posOf c (names (topological_sort files)) <
            posOf p (names (topological_sort files))) ∧
    (∀ (files : List MigrationFile) (f g : MigrationFile),
      (names files).Nodup → f ∈ files → g ∈ files →
      resolvedDepNames (sortedByName files) f.name = [] →
      (∀ p ∈ names (sortedByName files),
        f.name ∉ resolvedDepNames (sortedByName files) p) →
      (∀ p ∈ names (sortedByName files),
        g.name ∉ resolvedDepNames (sortedByName files) p) →
      pyStrLt f.name.toList g.name.toList = true →
      posOf f.name (names (topological_sort files)) <
        posOf g.name (names (topological_sort files))) ∧
    topological_sort [a_table, b_table] = [b_table, a_table] := by
  refine ⟨?_, ?_, by decide⟩
  · intro files rank hrank p hp c hc
    have hclosed := @topological_sort_depClosed files rank hrank
    obtain ⟨hnd_out, _, hcomp⟩ := topological_sort_main files
    exact depClosed_posOf hclosed hnd_out (hcomp p hp) hc
  · intro files f g hnd hf hg hfd hfnod hgnod hlt
    exact topological_sort_nodep_order hnd hf hg hfd hfnod hgnod hlt

/-- C1 (witness): the amended theorem applied at the two-file example with
the explicit rank function that places `b_table.sql` below `a_table.sql`,
and at the same example for the no-dependency clause. -/
theorem topological_sort_dependency_order_witness :
    posOf "b_table.sql" (names (topological_sort [a_table, b_table])) <
      posOf "a_table.sql" (names (topological_sort [a_table, b_table])) :=
  topological_sort_dependency_order.1 [a_table, b_table]
    (fun n => if n = "b_table.sql" then 0 else 1)
    (by decide) "a_table.sql" (by decide) "b_table.sql" (by decide)

/-- C4: even with cyclic or self-referential inferred dependencies,
`topological_sort` terminates (it is a total function; its fuel is shown
ample by the development above) and returns a permutation of its input:
every input file appears exactly once.  Distinct filenames are assumed, as
guaranteed by the data model (filenames are unique within a directory). -/
theorem topological_sort_terminates_perm
    (files : List MigrationFile) (hnd : (names files).Nodup) :
    (topological_sort files).Perm files :=
  topological_sort_perm hnd

/-- C4 (witness): the cycle example — two files each referencing the table
the other defines — still yields each input file exactly once. -/
theorem topological_sort_terminates_perm_witness :
    (topological_sort [cycleX, cycleY]).Perm [cycleX, cycleY] ∧
    "y.sql" ∈ resolvedDepNames (sortedByName [cycleX, cycleY]) "x.sql" ∧
    "x.sql" ∈ resolvedDepNames (sortedByName [cycleX, cycleY]) "y.sql" :=
  ⟨topological_sort_terminates_perm [cycleX, cycleY] (by decide),
    by decide, by decide⟩

/-- C8: when no file's content yields any referenced table, the computed
order is exactly the lexicographic sort of the input by filename. -/
theorem topological_sort_lex_fallback
    (files : List MigrationFile) (hnd : (names files).Nodup)
    (hrefs : ∀ f ∈ files, get_table_references f.content = []) :
    topological_sort files = sortedByName files := by
  have hnds : (names (sortedByName files)).Nodup := names_sorted_nodup hnd
  have hrefs' : ∀ f ∈ sortedByName files,
      get_table_references f.content = [] :=
    fun f hf => hrefs f ((sortedByName_perm files).mem_iff.1 hf)
  rw [topological_sort_eq_foldNames]
  rw [@fold_nodeps (sortedByName files)
    ((sortedByName files).length) (sortedByName files)
    (([], []) : VisitSt)
    (fun f hf => findByName_of_nodup hnds hf)
    (fun f _ => resolvedDepNames_nil_of_no_refs hrefs' f.name)
    (fun f _ hc => absurd hc (List.not_mem_nil f.name))
    hnds]
  rfl

/-- C8 (witness): two reference-free files given in anti-lexicographic
order come out lexicographically sorted. -/
theorem topological_sort_lex_fallback_witness :
    topological_sort [demoC, demoB] = sortedByName [demoC, demoB] ∧
    sortedByName [demoC, demoB] = [demoB, demoC] :=
  ⟨topological_sort_lex_fallback [demoC, demoB] (by decide) (by decide),
    by decide⟩

/-- C10: reference extraction is case-sensitive — content without the
upper-case literal `REFERENCES` yields no referenced table (so no
dependency edge), illustrated on a lowercase `references` line — while
mode detection upper-cases the content first, so lowercase
`create database` still selects autocommit mode and a leading lowercase
`begin;` still selects self-managed mode. -/
theorem reference_case_sensitivity :
    (∀ content : String, ¬ (refsLit <:+: content.toList) →
      get_table_references content = []) ∧
    get_table_references "alter table x add foreign key references b" = [] ∧
    requires_autocommit "create database foo;" = true ∧
    has_transaction_block "begin;\nCREATE TABLE x (id INT);\ncommit;" =
      true := by
  refine ⟨?_, by decide, by decide, by decide⟩
  intro content h
  exact get_table_references_nil h

/-- C10 (witness): the universal clause applied at a concrete content with
no upper-case `REFERENCES` occurrence. -/
theorem reference_case_sensitivity_witness :
    get_table_references "insert into t values (1); -- references nothing" =
      [] :=
  reference_case_sensitivity.1
    "insert into t values (1); -- references nothing" (by decide)

/-- C2: `apply_migration` selects exactly one of three mutually exclusive
modes, in priority order decided by the content: autocommit when an
autocommit marker occurs (the isolation level is switched, and restored);
otherwise self-managed when the content begins with or contains a
transaction-start marker (`has_transaction_block`), executing the file
verbatim as one unit; otherwise wrapped, executing `BEGIN;`, the whole
file as one block, then `COMMIT;`.  The guards `requires_autocommit` and
`has_transaction_block` are checked in exactly this order, so the three
cases are mutually exclusive by construction. -/
theorem apply_migration_mode_selection
    (env : DbEnv) (st : DbState) (f : MigrationFile) :
    (requires_autocommit f.content = true →
      ∃ mid, (apply_migration env st f).1.history =
        st.history ++ [DbOp.setIsolation 0] ++ mid ++
          [DbOp.setIsolation st.isolation]) ∧
    (requires_autocommit f.content = false →
      has_transaction_block f.content = true →
      apply_migration env st f = execSql env st f.content) ∧
    (requires_autocommit f.content = false →
      has_transaction_block f.content = false →
      (∀ h r, env h r = true) →
      (apply_migration env st f).1.history =
        st.history ++ [DbOp.exec "BEGIN;" true, DbOp.exec f.content true,
          DbOp.exec "COMMIT;" true] ∧
      (apply_migration env st f).2 = true) := by
  refine ⟨?_, ?_, ?_⟩
  · intro hreq
    obtain ⟨mid, hh, _⟩ := apply_migration_autocommit_shape env st f hreq
    exact ⟨mid, hh⟩
  · intro hreq htx
    unfold apply_migration
    rw [if_neg (by rw [hreq]; exact Bool.false_ne_true), if_pos htx]
  · intro hreq htx hsucc
    have h := apply_migration_success env st f hsucc
    rw [h]
    constructor
    · show st.history ++ applyOps f st.isolation = _
      unfold applyOps
      rw [if_neg (by rw [hreq]; exact Bool.false_ne_true),
        if_neg (by rw [htx]; exact Bool.false_ne_true)]
    · rfl

/-- C2 (witness): the three modes at three concrete files, under the
all-success environment. -/
theorem apply_migration_mode_selection_witness :
    (∃ mid, (apply_migration envTrue st0 demoAuto).1.history =
      st0.history ++ [DbOp.setIsolation 0] ++ mid ++
        [DbOp.setIsolation st0.isolation]) ∧
    apply_migration envTrue st0 ⟨"t.sql", "BEGIN;\nSELECT 1;\nCOMMIT;"⟩ =
      execSql envTrue st0 "BEGIN;\nSELECT 1;\nCOMMIT;" ∧
    (apply_migration envTrue st0 demoWrapped).1.history =
      st0.history ++ [DbOp.exec "BEGIN;" true,
        DbOp.exec demoWrapped.content true, DbOp.exec "COMMIT;" true] :=
  ⟨(apply_migration_mode_selection envTrue st0 demoAuto).1 (by decide),
   (apply_migration_mode_selection envTrue st0
      ⟨"t.sql", "BEGIN;\nSELECT 1;\nCOMMIT;"⟩).2.1 (by decide) (by decide),
   ((apply_migration_mode_selection envTrue st0 demoWrapped).2.2
      (by decide) (by decide) (fun _ _ => rfl)).1⟩

/-- C7: in autocommit mode, when no statement raises, `apply_migration`
executes exactly the semicolon-delimited statements whose trimmed text is
non-empty (`autocommitStatements`), each as an independent operation
between the switch to isolation level 0 and the restore; and for **every**
environment — i.e. regardless of whether any statement raised — the
previous isolation level is restored as the final operation and the
connection ends at its original isolation level, with only statements from
the file's fragment list attempted in between. -/
theorem apply_migration_autocommit_spec
    (env : DbEnv) (st : DbState) (f : MigrationFile)
    (hreq : requires_autocommit f.content = true) :
    ((∀ h r, env h r = true) →
      apply_migration env st f =
        ({ history := st.history ++ [DbOp.setIsolation 0] ++
            (autocommitStatements f.content).map
              (fun s => DbOp.exec s true) ++
            [DbOp.setIsolation st.isolation],
           isolation := st.isolation }, true)) ∧
    (apply_migration env st f).1.isolation = st.isolation ∧
    (∃ mid, (apply_migration env st f).1.history =
      st.history ++ [DbOp.setIsolation 0] ++ mid ++
        [DbOp.setIsolation st.isolation] ∧
      ∀ op ∈ mid, ∃ s b, op = DbOp.exec s b ∧
        s ∈ autocommitStatements f.content) := by
  refine ⟨?_, apply_migration_isolation env st f,
    apply_migration_autocommit_shape env st f hreq⟩
  intro hsucc
  have h := apply_migration_success env st f hsucc
  rw [h]
  have : applyOps f st.isolation =
      [DbOp.setIsolation 0] ++
        (autocommitStatements f.content).map (fun s => DbOp.exec s true) ++
        [DbOp.setIsolation st.isolation] := by
    unfold applyOps
    rw [if_pos hreq]
    simp
  rw [this]
  simp [List.append_assoc]

/-- C7 (witness): the autocommit theorem at a concrete two-statement file
under the all-success environment. -/
theorem apply_migration_autocommit_spec_witness :
    apply_migration envTrue st0 demoAuto =
      ({ history := st0.history ++ [DbOp.setIsolation 0] ++
          (autocommitStatements demoAuto.content).map
            (fun s => DbOp.exec s true) ++
          [DbOp.setIsolation st0.isolation],
         isolation := st0.isolation }, true) :=
  (apply_migration_autocommit_spec envTrue st0 demoAuto (by decide)).1
    (fun _ _ => rfl)

/-- C3: if, after some fully successful prefix `pre`, applying or
recording the next file `f` raises, the runner attempts exactly one
`ROLLBACK;` on the connection (whose own success or failure is read from
the environment but never changes the outcome), the run returns exit
status 1, and nothing of `post` is attempted — the result is literally
independent of `post`.  The prefix's committed trace is preserved: the
state reached after `pre` is a prefix of the final history. -/
theorem process_halts_on_failure
    (env : DbEnv) (st st1 : DbState) (pre : List MigrationFile)
    (f : MigrationFile) (post : List MigrationFile) (ap : List String)
    (hpre : process_migration_files env st pre ap = (st1, none))
    (hskip : f.name ∉ ap) :
    ((apply_migration env st1 f).2 = false →
      process_migration_files env st (pre ++ f :: post) ap =
        ((execSql env (apply_migration env st1 f).1 "ROLLBACK;").1,
          some 1) ∧
      st1.history <+:
        (execSql env (apply_migration env st1 f).1 "ROLLBACK;").1.history) ∧
    ((apply_migration env st1 f).2 = true →
      (record_migration env (apply_migration env st1 f).1 f.name).2 =
        false →
      process_migration_files env st (pre ++ f :: post) ap =
        ((execSql env
          (record_migration env (apply_migration env st1 f).1 f.name).1
          "ROLLBACK;").1, some 1) ∧
      st1.history <+: (execSql env
          (record_migration env (apply_migration env st1 f).1 f.name).1
          "ROLLBACK;").1.history) := by
  constructor
  · intro hfail
    constructor
    · rw [process_continue env ap pre st st1 hpre (f :: post)]
      exact process_fail_apply env st1 f post ap hskip hfail
    · obtain ⟨opsA, hA, _⟩ := apply_migration_frame env st1 f
      rw [execSql_history, hA]
      exact ⟨opsA ++ [DbOp.exec "ROLLBACK;"
        (env (st1.history ++ opsA) (DbReq.sql "ROLLBACK;"))],
        by simp⟩
  · intro hok hfail
    constructor
    · rw [process_continue env ap pre st st1 hpre (f :: post)]
      exact process_fail_record env st1 f post ap hskip hok hfail
    · obtain ⟨opsA, hA, _⟩ := apply_migration_frame env st1 f
      obtain ⟨opsR, hR, _, _, _, _⟩ := record_migration_frame env
        (apply_migration env st1 f).1 f.name
      rw [execSql_history, hR, hA]
      refine ⟨opsA ++ opsR ++ [DbOp.exec "ROLLBACK;"
        (env (st1.history ++ opsA ++ opsR) (DbReq.sql "ROLLBACK;"))], ?_⟩
      simp

/-- C3 (witness): with an empty prefix and an environment failing on the
statement `BAD`, processing `[demoBad, demoWrapped]` rolls back, exits 1,
and the result does not mention the later file. -/
theorem process_halts_on_failure_witness :
    process_migration_files envBad st0 ([] ++ demoBad :: [demoWrapped]) [] =
      ((execSql envBad (apply_migration envBad st0 demoBad).1
        "ROLLBACK;").1, some 1) ∧
    st0.history <+:
      (execSql envBad (apply_migration envBad st0 demoBad).1
        "ROLLBACK;").1.history :=
  (process_halts_on_failure envBad st0 st0 [] demoBad [demoWrapped] []
    rfl (by decide)).1 (by decide)

/-- C5: a file whose filename is in the applied set is skipped — the
processing of the list is literally the processing of the remaining list,
so neither `apply_migration` nor `record_migration` runs for it — and for
any filename in the applied set, the run adds no tracking-table operation
for it: the tracking inserts for that filename in the history are exactly
those already present before the run. -/
theorem process_skips_applied :
    (∀ (env : DbEnv) (st : DbState) (f : MigrationFile)
      (rest : List MigrationFile) (ap : List String), f.name ∈ ap →
      process_migration_files env st (f :: rest) ap =
        process_migration_files env st rest ap) ∧
    (∀ (env : DbEnv) (st : DbState) (files : List MigrationFile)
      (ap : List String) (fn : String), fn ∈ ap →
      (process_migration_files env st files ap).1.history.filter
          (fun op => isTrackingInsertFor fn op) =
        st.history.filter (fun op => isTrackingInsertFor fn op)) :=
  ⟨fun env st f rest ap h => process_skip env st f rest ap h,
   fun env st files ap fn h => process_filter_applied env ap files st fn h⟩

/-- C5 (witness): with `001_init.sql` already applied, processing a list
containing it is processing the rest, and its tracking record set is
unchanged. -/
theorem process_skips_applied_witness :
    process_migration_files envTrue st0
        [⟨"001_init.sql", "CREATE TABLE a (id INT);"⟩, demoWrapped]
        ["001_init.sql"] =
      process_migration_files envTrue st0 [demoWrapped] ["001_init.sql"] ∧
    (process_migration_files envTrue st0
        [⟨"001_init.sql", "CREATE TABLE a (id INT);"⟩, demoWrapped]
        ["001_init.sql"]).1.history.filter
        (fun op => isTrackingInsertFor "001_init.sql" op) =
      st0.history.filter (fun op => isTrackingInsertFor "001_init.sql" op) :=
  ⟨process_skips_applied.1 envTrue st0
      ⟨"001_init.sql", "CREATE TABLE a (id INT);"⟩ [demoWrapped]
      ["001_init.sql"] (by decide),
   process_skips_applied.2 envTrue st0
      [⟨"001_init.sql", "CREATE TABLE a (id INT);"⟩, demoWrapped]
      ["001_init.sql"] "001_init.sql" (by decide)⟩

/-- C9: (1) on a fully successful run the trace decomposes into per-file
blocks, each non-skipped file contributing its application followed by its
own `BEGIN; INSERT; COMMIT;` tracking transaction — so a tracking insert
happens exactly once per processed filename, immediately after that file's
statements were applied; (2) with distinct filenames and a fresh
connection, at most one tracking insert per filename ever enters the
history, on any environment; (3) every operation the run issues is a
set-isolation, a tracking insert for a not-yet-applied file, or the
execution of one of the runner's own statements (`BEGIN;`/`COMMIT;`/
`ROLLBACK;`, a file's verbatim content, or an autocommit fragment of it) —
in particular the component never issues an UPDATE or DELETE of its own
against the tracking table. -/
theorem tracking_insert_discipline
    (env : DbEnv) (st : DbState) (files : List MigrationFile)
    (ap : List String) :
    ((∀ h r, env h r = true) →
      process_migration_files env st files ap =
        ({ history := st.history ++
            (files.map (perFileOps ap st.isolation)).flatten,
           isolation := st.isolation }, none)) ∧
    ((names files).Nodup → st.history = [] → ∀ fn,
      ((process_migration_files env st files ap).1.history.filter
        (fun op => isTrackingInsertFor fn op)).length ≤ 1) ∧
    (∃ Δ, (process_migration_files env st files ap).1.history =
      st.history ++ Δ ∧
      ∀ op ∈ Δ,
        (∃ lvl, op = DbOp.setIsolation lvl) ∨
        (∃ fn b, op = DbOp.insertTracking fn b ∧ fn ∈ names files ∧
          fn ∉ ap) ∨
        (∃ s b, op = DbOp.exec s b ∧ allowedStmt files s)) := by
  refine ⟨fun hsucc => process_success env hsucc ap files st, ?_,
    process_ops_allowed env ap files st⟩
  intro hnd hempty fn
  have h := process_insert_count env ap files st fn hnd
  rw [hempty] at h
  simp only [List.filter_nil, List.length_nil, Nat.zero_add] at h
  by_cases hfn : fn ∈ names files
  · rw [if_pos hfn] at h
    exact h
  · rw [if_neg hfn] at h
    omega

/-- C9 (witness): the decomposition and the at-most-one bound at a
concrete one-file run. -/
theorem tracking_insert_discipline_witness :
    process_migration_files envTrue st0 [demoWrapped] [] =
      ({ history := st0.history ++
          ([demoWrapped].map (perFileOps [] st0.isolation)).flatten,
         isolation := st0.isolation }, none) ∧
    ((process_migration_files envTrue st0 [demoWrapped] []).1.history.filter
      (fun op => isTrackingInsertFor "m.sql" op)).length ≤ 1 :=
  ⟨(tracking_insert_discipline envTrue st0 [demoWrapped] []).1
      (fun _ _ => rfl),
   (tracking_insert_discipline envTrue st0 [demoWrapped] []).2.1
      (by decide) rfl "m.sql"⟩

/-- C6: the process exit status is 0 on full success and on the graceful
no-op cases (missing migrations directory; no SQL files found), and 1 when
`DATABASE_URL` is unset, when the database connection fails, or when
applying a migration fails (the failing run exits via `sys.exit(1)`). -/
theorem main_exit_codes :
    (∀ (c : Bool) (env : DbEnv) (d : Bool) (fs : List MigrationFile)
      (ap : List String), main_exit none c env d fs ap = 1) ∧
    (∀ (s : String) (env : DbEnv) (d : Bool) (fs : List MigrationFile)
      (ap : List String), s ≠ "" →
      main_exit (some s) false env d fs ap = 1) ∧
    (∀ (s : String) (env : DbEnv) (fs : List MigrationFile)
      (ap : List String), s ≠ "" →
      main_exit (some s) true env false fs ap = 0) ∧
    (∀ (s : String) (env : DbEnv) (ap : List String), s ≠ "" →
      main_exit (some s) true env true [] ap = 0) ∧
    (∀ (s : String) (env : DbEnv) (fs : List MigrationFile)
      (ap : List String), s ≠ "" → fs ≠ [] →
      (∀ h r, env h r = true) →
      main_exit (some s) true env true fs ap = 0) ∧
    (∀ (s : String) (env : DbEnv) (fs : List MigrationFile)
      (ap : List String), s ≠ "" → fs ≠ [] →
      (process_migration_files env st0 (topological_sort fs) ap).2 =
        some 1 →
      main_exit (some s) true env true fs ap = 1) := by
  refine ⟨fun _ _ _ _ _ => rfl, ?_, ?_, ?_, ?_, ?_⟩
  · intro s env d fs ap hs
    simp [main_exit, hs]
  · intro s env fs ap hs
    simp [main_exit, run_migrations, hs]
  · intro s env ap hs
    simp [main_exit, run_migrations, hs]
  · intro s env fs ap hs hfs hsucc
    cases fs with
    | nil => exact absurd rfl hfs
    | cons f rest =>
      have hrun := process_success env hsucc ap (topological_sort (f :: rest))
        { history := [], isolation := 1 }
      simp only [main_exit, run_migrations, hs, if_neg hs]
      simp only [List.isEmpty_cons, Bool.not_true, Bool.false_eq_true,
        if_false, Bool.not_false, if_true]
      rw [hrun]
  · intro s env fs ap hs hfs hfail
    cases fs with
    | nil => exact absurd rfl hfs
    | cons f rest =>
      rw [show st0 = { history := [], isolation := 1 } from rfl] at hfail
      simp only [main_exit, run_migrations, hs, if_neg hs]
      simp only [List.isEmpty_cons, Bool.not_true, Bool.false_eq_true,
        if_false, Bool.not_false, if_true]
      rw [hfail]

/-- C6 (witness): a successful one-file run exits 0; an unset
`DATABASE_URL` exits 1. -/
theorem main_exit_codes_witness :
    main_exit (some "postgresql://u@h/db") true envTrue true
        [demoWrapped] [] = 0 ∧
    main_exit none true envTrue true [demoWrapped] [] = 1 :=
  ⟨main_exit_codes.2.2.2.2.1 "postgresql://u@h/db" envTrue [demoWrapped] []
      (by decide) (by decide) (fun _ _ => rfl),
   main_exit_codes.1 true envTrue true [demoWrapped] []⟩

end Migrate
